import Mathlib

/-!
Verification of the pybayes QBBN core (src/qbbn/core): logical primitives,
the Horn-clause knowledge base and grounding, the factor graph, and loopy
belief propagation, shallowly embedded from the Python source.

Python floats are modelled as real numbers; Python dicts are modelled as
insertion-ordered association lists with overwrite-on-insert, matching
dict semantics.  Operations that can raise at runtime (dict subscripts,
list indexing) are modelled with Option where the claims depend on it.
-/

namespace PyBayes

/-- Insertion-ordered association list modelling a Python `dict`. -/
abbrev Dict (α β : Type) : Type := List (α × β)

namespace Dict

variable {α β : Type} [DecidableEq α]

/-- The empty dict. -/
def empty : Dict α β := []

/-- `d[k]` lookup: first (and, keys being unique, only) entry for `k`. -/
def lookup (d : Dict α β) (k : α) : Option β :=
  match d with
  | [] => none
  | (k', v) :: rest => if k' = k then some v else lookup rest k

/-- `k in d`. -/
def contains (d : Dict α β) (k : α) : Bool :=
  match d with
  | [] => false
  | (k', _) :: rest => if k' = k then true else contains rest k

/-- `d[k] = v`: overwrite in place if present, else append (dict order). -/
def insert (d : Dict α β) (k : α) (v : β) : Dict α β :=
  match d with
  | [] => [(k, v)]
  | (k', v') :: rest =>
      if k' = k then (k', v) :: rest else (k', v') :: insert rest k v

/-- `d.get(k, default)`. -/
def getD (d : Dict α β) (k : α) (default : β) : β :=
  (d.lookup k).getD default

/-- `list(d.items())` (a dict is already its item list). -/
def items (d : Dict α β) : List (α × β) := d

/-- `list(d.values())`. -/
def values (d : Dict α β) : List β := d.map Prod.snd

/-- `list(d.keys())`. -/
def keys (d : Dict α β) : List α := d.map Prod.fst

theorem lookup_insert (d : Dict α β) (k : α) (v : β) (k' : α) :
    (d.insert k v).lookup k' = if k = k' then some v else d.lookup k' := by
  induction d with
  | nil =>
      by_cases h : k = k' <;> simp [insert, lookup, h]
  | cons p rest ih =>
      obtain ⟨k₀, v₀⟩ := p
      by_cases h₀ : k₀ = k
      · subst h₀
        by_cases h₁ : k₀ = k' <;> simp [insert, lookup, h₁]
      · by_cases h₁ : k₀ = k'
        · subst h₁
          have hk : ¬k = k₀ := fun h => h₀ h.symm
          simp [insert, lookup, h₀, hk]
        · simp [insert, lookup, h₀, h₁, ih]

theorem lookup_insert_self (d : Dict α β) (k : α) (v : β) :
    (d.insert k v).lookup k = some v := by
  simp [lookup_insert]

theorem lookup_insert_ne (d : Dict α β) (k : α) (v : β) (k' : α) (h : k ≠ k') :
    (d.insert k v).lookup k' = d.lookup k' := by
  simp [lookup_insert, h]

theorem keys_insert (d : Dict α β) (k : α) (v : β) :
    (d.insert k v).keys = if d.contains k then d.keys else d.keys ++ [k] := by
  induction d with
  | nil => simp [insert, keys, contains]
  | cons p rest ih =>
      obtain ⟨k₀, v₀⟩ := p
      by_cases h₀ : k₀ = k
      · subst h₀; simp [insert, keys, contains]
      · simp [insert, keys, contains, h₀] at ih ⊢
        rw [ih]
        by_cases hc : contains rest k <;> simp [hc]

theorem contains_iff_lookup (d : Dict α β) (k : α) :
    d.contains k = true ↔ ∃ v, d.lookup k = some v := by
  induction d with
  | nil => simp [contains, lookup]
  | cons p rest ih =>
      obtain ⟨k₀, v₀⟩ := p
      by_cases h₀ : k₀ = k <;> simp [contains, lookup, h₀, ih]

end Dict

/-! ## `qbbn/core/logic.py` -/

/-- `Type` (a named category); `PType` avoids clashing with Lean's `Type`. -/
structure PType where
  name : String
deriving DecidableEq, Repr

/-- `RoleLabel`. -/
structure RoleLabel where
  name : String
deriving DecidableEq, Repr

/-- `Entity`. -/
structure Entity where
  id : String
deriving DecidableEq, Repr

/-- `Constant`: an (Entity, Type) pair. -/
structure Constant where
  entity : Entity
  type : PType
deriving DecidableEq, Repr

/-- `Variable` as it stands in `qbbn/core/logic.py`: a frozen dataclass with
a single field `type` (no `name` field). -/
structure Variable where
  type : PType
deriving DecidableEq, Repr

/-- `Argument = Union[Constant, Variable]`. -/
inductive Argument where
  | const : Constant → Argument
  | var : Variable → Argument
deriving DecidableEq, Repr

/-- `Predicate`: function name plus ordered (RoleLabel, Argument) pairs. -/
structure Predicate where
  function_name : String
  roles : List (RoleLabel × Argument)
deriving DecidableEq, Repr

/-- `Predicate.is_grounded`: every argument is a `Constant`. -/
def Predicate.is_grounded (p : Predicate) : Bool :=
  p.roles.all fun ra =>
    match ra.2 with
    | .const _ => true
    | .var _ => false

/-- `Predicate.substitute`: replace variables that are bound in `bindings`. -/
def Predicate.substitute (p : Predicate) (bindings : Dict Variable Constant) :
    Predicate :=
  { function_name := p.function_name
    roles := p.roles.map fun ra =>
      match ra.2 with
      | .var v =>
          match bindings.lookup v with
          | some c => (ra.1, .const c)
          | none => ra
      | .const _ => ra }

/-! ## `qbbn/core/horn.py` -/

/-- `HornClause` as it stands in `qbbn/core/horn.py`: premises, conclusion
and variables only — the dataclass has NO `weight` field (unlike the spec's
data model and unlike the sibling `world/core/horn.py`, which declares
`weight: float = 1.0`).  The source field `variables` is spelled `vars`
here because `variables` is a reserved word in Lean. -/
structure HornClause where
  premises : List Predicate
  conclusion : Predicate
  vars : List Variable
deriving DecidableEq, Repr

/-- `HornClause.is_fact`: no premises. -/
def HornClause.is_fact (c : HornClause) : Bool :=
  c.premises.length = 0

/-- `HornClause.is_grounded`. -/
def HornClause.is_grounded (c : HornClause) : Bool :=
  (c.premises.all Predicate.is_grounded) && c.conclusion.is_grounded

/-- `HornClause.ground`: substitute the bindings into every premise and the
conclusion, dropping the variable list. -/
def HornClause.ground (c : HornClause) (bindings : Dict Variable Constant) :
    HornClause :=
  { premises := c.premises.map (·.substitute bindings)
    conclusion := c.conclusion.substitute bindings
    vars := [] }

/-- `KnowledgeBase`. -/
structure KnowledgeBase where
  entities : Dict String Constant
  types : Dict String PType
  clauses : List HornClause

/-- `KnowledgeBase.entities_of_type`: all entity constants whose type name
matches. -/
def KnowledgeBase.entities_of_type (kb : KnowledgeBase) (type_name : String) :
    List Constant :=
  kb.entities.values.filter fun c => c.type.name = type_name

/-- `KnowledgeBase.add_fact`. -/
def KnowledgeBase.add_fact (kb : KnowledgeBase) (pred : Predicate) :
    KnowledgeBase :=
  { kb with clauses := kb.clauses ++
      [{ premises := [], conclusion := pred, vars := [] }] }

/-- `KnowledgeBase.add_rule`. -/
def KnowledgeBase.add_rule (kb : KnowledgeBase) (premises : List Predicate)
    (conclusion : Predicate) (variableList : List Variable) : KnowledgeBase :=
  { kb with clauses := kb.clauses ++
      [{ premises := premises, conclusion := conclusion,
         vars := variableList }] }

/-- `itertools.product(*domains)`: Cartesian product in lexicographic order,
rightmost factor varying fastest. -/
def listProduct {α : Type} : List (List α) → List (List α)
  | [] => [[]]
  | d :: ds => d.flatMap fun x => (listProduct ds).map (x :: ·)

/-- The binding dict `{var: const for var, const in zip(variables, combo)}`:
left-to-right dict construction, later duplicate keys overwriting earlier. -/
def mkBinding (variableList : List Variable) (combo : List Constant) :
    Dict Variable Constant :=
  ((variableList.zip combo).foldl (fun d vc => d.insert vc.1 vc.2) Dict.empty)

/-- `KnowledgeBase._all_bindings`: empty variable tuple gives the single
empty binding; an empty domain gives no bindings at all; otherwise one
binding per element of the Cartesian product of the domains. -/
def KnowledgeBase.all_bindings (kb : KnowledgeBase)
    (variableList : List Variable) : List (Dict Variable Constant) :=
  if variableList = [] then [Dict.empty]
  else
    let domains := variableList.map fun v => kb.entities_of_type v.type.name
    if domains.any (· = []) then []
    else (listProduct domains).map (mkBinding variableList)

/-- `KnowledgeBase.ground_all`: facts pass through unchanged; each rule is
grounded once per binding. -/
def KnowledgeBase.ground_all (kb : KnowledgeBase) : List HornClause :=
  kb.clauses.flatMap fun clause =>
    if clause.is_fact then [clause]
    else (kb.all_bindings clause.vars).map clause.ground

/-! ## `qbbn/core/logical_lang.py` — formatting helpers needed by the graph -/

/-- `format_arg`.  For a `Variable` the source evaluates `arg.name`, but
`Variable` in `qbbn/core/logic.py` has no `name` field, so that access
raises `AttributeError` at runtime; the branch is modelled as `none`. -/
def format_arg : Argument → Option String
  | .const c => some c.entity.id
  | .var _ => none

/-- `format_predicate`: canonical textual key of a predicate. -/
def format_predicate (pred : Predicate) : Option String :=
  (pred.roles.mapM fun ra =>
      (format_arg ra.2).map fun a => ra.1.name ++ ": " ++ a).map
    fun args =>
      pred.function_name ++ "(" ++ String.intercalate ", " args ++ ")"

/-! ## `qbbn/core/factor_graph.py` — data model and construction -/

/-- A two-element Python float list `[P(false), P(true)]`. -/
abbrev Msg : Type := ℝ × ℝ

/-- `VariableNode`. -/
structure VariableNode where
  key : String
  belief : Msg := (0.5, 0.5)
  is_evidence : Bool := false

/-- `VariableNode.set_evidence`. -/
def VariableNode.set_evidence (v : VariableNode) (value : Bool) :
    VariableNode :=
  { v with is_evidence := true
           belief := if value then (0.0, 1.0) else (1.0, 0.0) }

/-- `VariableNode.prob_true`. -/
def VariableNode.prob_true (v : VariableNode) : ℝ := v.belief.2

/-- `FactorNode`. -/
structure FactorNode where
  factor_id : ℕ
  var_keys : List String
  weight : ℝ
  factor_type : String
  messages : Dict String Msg := Dict.empty

/-- `FactorNode.init_messages`: one uninformative `[1.0, 1.0]` outgoing
message per connected variable. -/
def FactorNode.init_messages (f : FactorNode) : FactorNode :=
  { f with messages :=
      f.var_keys.foldl (fun m key => m.insert key (1.0, 1.0)) f.messages }

/-- `FactorGraph`.  The source field `variables` is spelled `vars` here
because `variables` is a reserved word in Lean. -/
structure FactorGraph where
  vars : Dict String VariableNode := Dict.empty
  factors : List FactorNode := []
  var_to_factors : Dict String (List ℕ) := Dict.empty

/-- `FactorGraph.add_variable` (idempotent). -/
def FactorGraph.add_variable (g : FactorGraph) (key : String) : FactorGraph :=
  if g.vars.contains key then g
  else { g with vars := g.vars.insert key { key := key }
                var_to_factors := g.var_to_factors.insert key [] }

/-- `FactorGraph.add_implication_factor`. -/
def FactorGraph.add_implication_factor (g : FactorGraph)
    (premise_key conclusion_key : String) (weight : ℝ) : FactorGraph :=
  let g := (g.add_variable premise_key).add_variable conclusion_key
  let factor : FactorNode :=
    FactorNode.init_messages
      { factor_id := g.factors.length
        var_keys := [premise_key, conclusion_key]
        weight := weight
        factor_type := "implication" }
  let factor_idx := g.factors.length
  let v := g.var_to_factors.insert premise_key
      (g.var_to_factors.getD premise_key [] ++ [factor_idx])
  let v := v.insert conclusion_key (v.getD conclusion_key [] ++ [factor_idx])
  { g with factors := g.factors ++ [factor], var_to_factors := v }

/-- `FactorGraph.add_conjunction_factor`. -/
def FactorGraph.add_conjunction_factor (g : FactorGraph)
    (premise_keys : List String) (conclusion_key : String) (weight : ℝ) :
    FactorGraph :=
  let g := (premise_keys.foldl (fun g pk => g.add_variable pk)
      g).add_variable conclusion_key
  let all_keys := premise_keys ++ [conclusion_key]
  let factor : FactorNode :=
    FactorNode.init_messages
      { factor_id := g.factors.length
        var_keys := all_keys
        weight := weight
        factor_type := "conjunction_implication" }
  let factor_idx := g.factors.length
  { g with factors := g.factors ++ [factor]
           var_to_factors := all_keys.foldl
             (fun v key => v.insert key (v.getD key [] ++ [factor_idx]))
             g.var_to_factors }

/-- `FactorGraph.set_evidence` (silently ignores unknown keys). -/
def FactorGraph.set_evidence (g : FactorGraph) (key : String) (value : Bool) :
    FactorGraph :=
  match g.vars.lookup key with
  | some v => { g with vars := g.vars.insert key (v.set_evidence value) }
  | none => g

/-- `FactorGraph.from_knowledge_base`.  A fact clause adds its conclusion as
a clamped-true evidence variable.  For a rule clause the source evaluates
`clause.weight`, but `HornClause` in `qbbn/core/horn.py` has no `weight`
attribute (its `world/core/horn.py` twin does), so the access raises
`AttributeError` at runtime; that branch is modelled as `none`. -/
def FactorGraph.from_knowledge_base (kb : KnowledgeBase) :
    Option FactorGraph :=
  kb.ground_all.foldl
    (fun acc clause =>
      match acc with
      | none => none
      | some graph =>
          if clause.is_fact then
            match format_predicate clause.conclusion with
            | some key =>
                some ((graph.add_variable key).set_evidence key true)
            | none => none
          else none)
    (some { })

/-- `FactorGraph.stats`: (variables, factors, evidence) counts. -/
def FactorGraph.stats (g : FactorGraph) : ℕ × ℕ × ℕ :=
  (g.vars.items.length, g.factors.length,
   (g.vars.values.filter fun v => v.is_evidence).length)

/-- `compute_factor_potential`.  A complete assignment (a Python dict whose
keys cover the factor's variables) is modelled as a total function.
`var_keys[0]`, `var_keys[1]` and `var_keys[-1]` are modelled with `getD`;
in Python they raise `IndexError` on lists that are too short, which never
happens for graph-built factors. -/
noncomputable def compute_factor_potential (factor : FactorNode)
    (assignment : String → ℕ) : ℝ :=
  if factor.factor_type = "implication" then
    let premise_key := factor.var_keys.getD 0 ""
    let conclusion_key := factor.var_keys.getD 1 ""
    let premise_val := assignment premise_key
    let conclusion_val := assignment conclusion_key
    if premise_val = 1 ∧ conclusion_val = 0 then Real.exp (-factor.weight)
    else 1.0
  else if factor.factor_type = "conjunction_implication" then
    let conclusion_key := factor.var_keys.getD (factor.var_keys.length - 1) ""
    let premise_keys := factor.var_keys.dropLast
    let all_premises_true := premise_keys.all fun pk => assignment pk == 1
    let conclusion_val := assignment conclusion_key
    if all_premises_true ∧ conclusion_val = 0 then Real.exp (-factor.weight)
    else 1.0
  else 1.0

/-! ## `qbbn/core/factor_graph.py` — belief propagation

The variable→factor message dict `var_to_factor_msgs` is keyed by
`(variable key, factor index)`.  Dict subscripts and list indexing that can
raise `KeyError`/`IndexError` in Python are modelled with `Option`
(`none` = the call raises); `dict.get` with a default stays total. -/

/-- The variable→factor message store local to one `belief_propagation`
call. -/
abbrev V2F : Type := Dict (String × ℕ) Msg

/-- The assignment dict `{target_var: target_val}` extended with
`assignment[ov] = (bits >> i) & 1` for each enumerated other variable. -/
def buildAssignment (target_var : String) (target_val : ℕ)
    (other_vars : List String) (bits : ℕ) : Dict String ℕ :=
  other_vars.enum.foldl
    (fun assignment iov => assignment.insert iov.2 (bits / 2 ^ iov.1 % 2))
    (Dict.empty.insert target_var target_val)

/-- The inner `for bits in range(2 ** n_other)` accumulation of
`potential * msg_product` for one target value. -/
noncomputable def sumOverOthers (factor : FactorNode) (v2f : V2F)
    (target_var : String) (target_val : ℕ) (other_vars : List String) : ℝ :=
  (List.range (2 ^ other_vars.length)).foldl
    (fun total bits =>
      let assignment := buildAssignment target_var target_val other_vars bits
      let potential :=
        compute_factor_potential factor fun s => assignment.getD s 0
      let msg_product := other_vars.foldl
        (fun prod ov =>
          let ov_val := assignment.getD ov 0
          let msg := v2f.getD (ov, factor.factor_id) (1.0, 1.0)
          prod * (if ov_val = 0 then msg.1 else msg.2))
        1.0
      total + potential * msg_product)
    0.0

/-- One factor→variable message update: compute both target values,
normalize, damp against the stored message, track the L1 change.  `none`
models the `KeyError` were `target_var` missing from `factor.messages`. -/
noncomputable def updateFactorTarget (factor : FactorNode) (v2f : V2F)
    (damping : ℝ) (msgs : Dict String Msg) (max_change : ℝ)
    (target_var : String) : Option (Dict String Msg × ℝ) :=
  let other_vars := factor.var_keys.filter fun v => v ≠ target_var
  let new0 := sumOverOthers factor v2f target_var 0 other_vars
  let new1 := sumOverOthers factor v2f target_var 1 other_vars
  let msg_sum := new0 + new1
  let new_msg : Msg :=
    if msg_sum > 0 then (new0 / msg_sum, new1 / msg_sum) else (new0, new1)
  match msgs.lookup target_var with
  | none => none
  | some old_msg =>
      let damped_msg : Msg :=
        (damping * old_msg.1 + (1 - damping) * new_msg.1,
         damping * old_msg.2 + (1 - damping) * new_msg.2)
      let change := |damped_msg.1 - old_msg.1| + |damped_msg.2 - old_msg.2|
      some (msgs.insert target_var damped_msg, max max_change change)

/-- `for target_var in factor.var_keys`, threading the factor's (mutated in
place in the source) message dict and the running `max_change`. -/
noncomputable def updateFactorTargets (factor : FactorNode) (v2f : V2F)
    (damping : ℝ) : List String → Dict String Msg → ℝ →
    Option (Dict String Msg × ℝ)
  | [], msgs, max_change => some (msgs, max_change)
  | target_var :: rest, msgs, max_change =>
      match updateFactorTarget factor v2f damping msgs max_change target_var
      with
      | none => none
      | some (msgs', max_change') =>
          updateFactorTargets factor v2f damping rest msgs' max_change'

/-- `for factor in graph.factors` of the factor→variable phase. -/
noncomputable def updateAllFactors (v2f : V2F) (damping : ℝ) :
    List FactorNode → ℝ → Option (List FactorNode × ℝ)
  | [], max_change => some ([], max_change)
  | factor :: rest, max_change =>
      match updateFactorTargets factor v2f damping factor.var_keys
          factor.messages max_change with
      | none => none
      | some (msgs', max_change') =>
          match updateAllFactors v2f damping rest max_change' with
          | none => none
          | some (rest', max_change'') =>
              some ({ factor with messages := msgs' } :: rest', max_change'')

/-- Product of the incoming messages of all factors other than `fi`
(`none` models an out-of-range factor index or a missing message key). -/
def productOfOthers (g : FactorGraph) (var_key : String) (fi : ℕ) :
    List ℕ → Msg → Option Msg
  | [], acc => some acc
  | other_fi :: rest, acc =>
      if other_fi ≠ fi then
        match g.factors.get? other_fi with
        | none => none
        | some other_factor =>
            match other_factor.messages.lookup var_key with
            | none => none
            | some incoming =>
                productOfOthers g var_key fi rest
                  (acc.1 * incoming.1, acc.2 * incoming.2)
      else productOfOthers g var_key fi rest acc

/-- `for fi in factor_indices` of the non-evidence variable→factor phase. -/
noncomputable def updateVarKeyMsgs (g : FactorGraph) (var_key : String)
    (factor_indices : List ℕ) : List ℕ → V2F → Option V2F
  | [], v2f => some v2f
  | fi :: rest, v2f =>
      match productOfOthers g var_key fi factor_indices (1.0, 1.0) with
      | none => none
      | some new_msg =>
          let msg_sum := new_msg.1 + new_msg.2
          let normalized : Msg :=
            if msg_sum > 0 then (new_msg.1 / msg_sum, new_msg.2 / msg_sum)
            else new_msg
          updateVarKeyMsgs g var_key factor_indices rest
            (v2f.insert (var_key, fi) normalized)

/-- `for var_key, factor_indices in graph.var_to_factors.items()`:
evidence variables send their clamped belief; other variables send the
normalized product of all other factors' incoming messages. -/
noncomputable def updateVarMessages (g : FactorGraph) :
    List (String × List ℕ) → V2F → Option V2F
  | [], v2f => some v2f
  | (var_key, factor_indices) :: rest, v2f =>
      match g.vars.lookup var_key with
      | none => none
      | some var =>
          if var.is_evidence then
            updateVarMessages g rest
              (factor_indices.foldl
                (fun m fi => m.insert (var_key, fi) var.belief) v2f)
          else
            match updateVarKeyMsgs g var_key factor_indices factor_indices
                v2f with
            | none => none
            | some v2f' => updateVarMessages g rest v2f'

/-- Product of all incoming factor messages for the belief update. -/
def beliefProduct (g : FactorGraph) (var_key : String) :
    List ℕ → Msg → Option Msg
  | [], acc => some acc
  | fi :: rest, acc =>
      match g.factors.get? fi with
      | none => none
      | some factor =>
          match factor.messages.lookup var_key with
          | none => none
          | some msg =>
              beliefProduct g var_key rest (acc.1 * msg.1, acc.2 * msg.2)

/-- The belief update of one variable: evidence variables are skipped;
others get the normalized product of incoming factor messages (the belief
is left untouched when the product sums to zero). -/
noncomputable def updateBeliefVar (g : FactorGraph) (var_key : String)
    (var : VariableNode) : Option VariableNode :=
  if var.is_evidence then some var
  else
    match g.var_to_factors.lookup var_key with
    | none => none
    | some factor_indices =>
        match beliefProduct g var_key factor_indices (1.0, 1.0) with
        | none => none
        | some belief =>
            let b_sum := belief.1 + belief.2
            some { var with belief :=
              if b_sum > 0 then (belief.1 / b_sum, belief.2 / b_sum)
              else var.belief }

/-- `for var_key, var in graph.variables.items()` of the belief phase. -/
noncomputable def updateAllBeliefs (g : FactorGraph) :
    List (String × VariableNode) → Option (List (String × VariableNode))
  | [] => some []
  | (var_key, var) :: rest =>
      match updateBeliefVar g var_key var with
      | none => none
      | some var' =>
          match updateAllBeliefs g rest with
          | none => none
          | some rest' => some ((var_key, var') :: rest')

/-- One belief-propagation iteration: factor→variable messages, then
variable→factor messages, then beliefs; returns the updated graph, the
updated message store and this iteration's `max_change`. -/
noncomputable def bpSweep (g : FactorGraph) (v2f : V2F) (damping : ℝ) :
    Option (FactorGraph × V2F × ℝ) :=
  match updateAllFactors v2f damping g.factors 0.0 with
  | none => none
  | some (factors', max_change) =>
      let g1 : FactorGraph := { g with factors := factors' }
      match updateVarMessages g1 g1.var_to_factors.items v2f with
      | none => none
      | some v2f' =>
          match updateAllBeliefs g1 g1.vars.items with
          | none => none
          | some vars' => some ({ g1 with vars := vars' }, v2f', max_change)

/-- One entry of a `BPTrace`. -/
structure TraceEntry where
  iteration : ℕ
  beliefs : Dict String ℝ
  factor_messages : Dict String ℝ

/-- `BPTrace`. -/
structure BPTrace where
  iterations : List TraceEntry := []

/-- `BPTrace.record`: per-variable `prob_true` and the `P(true)` entry of
every factor→variable message, keyed `f<id>-><var>`.  (The `messages`
argument is accepted and ignored, as in the source.) -/
def BPTrace.record (trace : BPTrace) (iteration : ℕ) (graph : FactorGraph)
    (messages : V2F) : BPTrace :=
  let beliefs : Dict String ℝ :=
    graph.vars.items.map fun kv => (kv.1, kv.2.prob_true)
  let factor_msgs : Dict String ℝ :=
    graph.factors.foldl
      (fun d factor =>
        factor.messages.items.foldl
          (fun d km =>
            d.insert ("f" ++ toString factor.factor_id ++ "->" ++ km.1)
              km.2.2)
          d)
      Dict.empty
  { trace with iterations := trace.iterations ++
      [{ iteration := iteration, beliefs := beliefs,
         factor_messages := factor_msgs }] }

/-- The initial variable→factor message store: `[1.0, 1.0]` for every
(variable, factor index) adjacency. -/
def initV2F (g : FactorGraph) : V2F :=
  g.var_to_factors.items.foldl
    (fun m kfis =>
      kfis.2.foldl (fun m fi => m.insert (kfis.1, fi) (1.0, 1.0)) m)
    Dict.empty

/-- The `for iteration in range(1, iterations + 1)` loop of
`belief_propagation`, as fuel recursion on the remaining iterations. -/
noncomputable def bpLoop (damping : ℝ) :
    ℕ → ℕ → FactorGraph → V2F → BPTrace → Option (FactorGraph × BPTrace)
  | 0, _, g, _, trace => some (g, trace)
  | fuel + 1, iteration, g, v2f, trace =>
      match bpSweep g v2f damping with
      | none => none
      | some (g', v2f', max_change) =>
          let trace' := trace.record iteration g' v2f'
          if max_change < 1e-6 then some (g', trace')
          else bpLoop damping fuel (iteration + 1) g' v2f' trace'

/-- `belief_propagation(graph, iterations, damping, trace)`.  The source
mutates the graph in place and returns the trace; the final graph is
returned here alongside the trace.  `none` models an uncaught exception. -/
noncomputable def belief_propagation (g : FactorGraph) (iterations : ℕ)
    (damping : ℝ) (trace : Option BPTrace) :
    Option (FactorGraph × BPTrace) :=
  let trace0 := trace.getD { }
  let v2f := initV2F g
  let trace1 := trace0.record 0 g v2f
  bpLoop damping iterations 1 g v2f trace1

/-- The number of sweeps the `belief_propagation` loop completes before
stopping (budget exhausted, or `max_change` first below `1e-6`); the
`none` branch is unreachable whenever the run itself succeeds. -/
noncomputable def completedSweeps (damping : ℝ) :
    ℕ → FactorGraph → V2F → ℕ
  | 0, _, _ => 0
  | fuel + 1, g, v2f =>
      match bpSweep g v2f damping with
      | none => 0
      | some (g', v2f', max_change) =>
          if max_change < 1e-6 then 1
          else completedSweeps damping fuel g' v2f' + 1

/-- The state after `n` sweeps, with no early stopping. -/
noncomputable def iterSweep (damping : ℝ) :
    ℕ → FactorGraph → V2F → Option (FactorGraph × V2F)
  | 0, g, v2f => some (g, v2f)
  | n + 1, g, v2f =>
      match bpSweep g v2f damping with
      | none => none
      | some r => iterSweep damping n r.1 r.2.1

/-- The `max_change` of the `(n+1)`-st sweep on the given start state. -/
noncomputable def nthSweepChange (damping : ℝ) (g : FactorGraph) (v2f : V2F)
    (n : ℕ) : Option ℝ :=
  match iterSweep damping n g v2f with
  | none => none
  | some (g', v2f') => (bpSweep g' v2f' damping).map fun r => r.2.2

/-- `query(graph, key)`. -/
noncomputable def query (g : FactorGraph) (key : String) : ℝ :=
  match g.vars.lookup key with
  | some v => v.prob_true
  | none => 0.0

/-- No two entries of a dict share a key (true of every dict the program
builds; stated because the embedding represents dicts as lists). -/
def nodupKeys {α β : Type} [DecidableEq α] : Dict α β → Bool
  | [] => true
  | (k, _) :: rest => !(Dict.contains rest k) && nodupKeys rest

/-- Structural well-formedness of a factor graph, exactly the data-model
invariants `from_knowledge_base`/`add_*_factor` maintain: the adjacency
index points at existing variables and in-range factors, every adjacent
factor stores a message for the variable, every variable is indexed, and
every factor stores one message per connected variable key. -/
def FactorGraph.wf (g : FactorGraph) : Bool :=
  nodupKeys g.vars && nodupKeys g.var_to_factors &&
  (g.var_to_factors.items.all fun kfis =>
    g.vars.contains kfis.1 &&
    kfis.2.all fun fi =>
      ((g.factors.get? fi).map fun f =>
        f.messages.contains kfis.1).getD false) &&
  (g.vars.items.all fun kv => g.var_to_factors.contains kv.1) &&
  (g.factors.all fun f => f.var_keys.all fun key => f.messages.contains key)

/-! ## `qbbn/core/logical_lang.py` — the DSL compiler

The line parsers translate the source's regular expressions into
character-list matching: `\w+` is a maximal run of word characters, `\s*`
and `\s+` are runs of whitespace, and the regexes' `re.match` semantics
(anchored at the start, trailing input ignored) are preserved. -/

/-- `Rule` (`logical_lang.py`): premises, conclusion, variables, weight.
The source field `variables` is spelled `vars` here because `variables` is
a reserved word in Lean. -/
structure Rule where
  premises : List Predicate
  conclusion : Predicate
  vars : List Variable
  weight : ℝ := 1.0

/-- `LogicalDocument`. -/
structure LogicalDocument where
  entities : Dict String Constant := Dict.empty
  types : Dict String PType := Dict.empty
  propositions : List Predicate := []
  rules : List Rule := []
  queries : List Predicate := []

/-- `ParseError` (message, 1-based line number, the stripped line text). -/
structure ParseError where
  message : String
  line_num : ℕ
  line : String
deriving DecidableEq, Repr

/-- Python `\w` (ASCII range: letters, digits, underscore). -/
def isWordChar (c : Char) : Bool := c.isAlphanum || c = '_'

/-- `\w+`: a maximal nonempty run of word characters. -/
def takeWord (cs : List Char) : Option (List Char × List Char) :=
  let w := cs.takeWhile isWordChar
  if w.isEmpty then none else some (w, cs.drop w.length)

/-- `\s*`. -/
def skipSpaces (cs : List Char) : List Char :=
  cs.dropWhile Char.isWhitespace

/-- `\s+`. -/
def skipSpaces1 (cs : List Char) : Option (List Char) :=
  match cs with
  | c :: rest => if c.isWhitespace then some (skipSpaces rest) else none
  | [] => none

/-- Match a literal character sequence at the start of the input. -/
def stripLit : List Char → List Char → Option (List Char)
  | [], cs => some cs
  | _ :: _, [] => none
  | l :: ls, c :: cs => if c = l then stripLit ls cs else none

/-- Python `str.strip()` on a character list. -/
def stripChars (cs : List Char) : List Char :=
  ((cs.dropWhile Char.isWhitespace).reverse.dropWhile
    Char.isWhitespace).reverse

/-- Python `str.split(sep)` for a one-character separator. -/
def splitOnChar (sep : Char) : List Char → List (List Char)
  | [] => [[]]
  | c :: rest =>
      let parts := splitOnChar sep rest
      if c = sep then [] :: parts
      else
        match parts with
        | p :: ps => (c :: p) :: ps
        | [] => [[c]]

/-- Python `str.split("->", 1)`: split at the first `->`, if any. -/
def splitOnArrow : List Char → Option (List Char × List Char)
  | [] => none
  | '-' :: '>' :: rest => some ([], rest)
  | c :: rest => (splitOnArrow rest).map fun p => (c :: p.1, p.2)

/-- `(\w+)\s*:\s*(\w+)`: the shared tail of the entity and role/argument
regexes (trailing input ignored, as with `re.match`). -/
def matchNameColonName (cs : List Char) : Option (String × String) :=
  match takeWord cs with
  | none => none
  | some (w1, rest) =>
      match stripLit [':'] (skipSpaces rest) with
      | none => none
      | some rest2 =>
          match takeWord (skipSpaces rest2) with
          | none => none
          | some (w2, _) => some (⟨w1⟩, ⟨w2⟩)

/-- The split of `(\w+)\s*\((.*)\)`: function name, then everything
between the opening parenthesis and the last closing parenthesis. -/
def matchPredicateShape (cs : List Char) : Option (String × List Char) :=
  match takeWord cs with
  | none => none
  | some (fn, rest) =>
      match stripLit ['('] (skipSpaces rest) with
      | none => none
      | some body =>
          match (body.reverse.dropWhile fun c => c ≠ ')') with
          | [] => none
          | _ :: tailRev => some (⟨fn⟩, tailRev.reverse)

/-- Digits to a natural number. -/
def digitsToNat (ds : List Char) : ℕ :=
  ds.foldl (fun n c => 10 * n + (c.toNat - '0'.toNat)) 0

/-- `float()` of a `\d+\.?\d*` literal, as an exact real. -/
noncomputable def floatVal (intDigits fracDigits : List Char) : ℝ :=
  (digitsToNat intDigits : ℝ) +
    (digitsToNat fracDigits : ℝ) / 10 ^ fracDigits.length

/-- `re.search(r'\[(\d+\.?\d*)\]\s*$', line)` and the removal of the
matched suffix: returns the weight digits and `line[:match.start()]`. -/
def matchWeightSuffix (cs : List Char) :
    Option ((List Char × List Char) × List Char) :=
  match cs.reverse.dropWhile Char.isWhitespace with
  | ']' :: r1 =>
      let dsA := r1.takeWhile Char.isDigit
      let r2 := r1.drop dsA.length
      match r2 with
      | '.' :: r3 =>
          let dsB := r3.takeWhile Char.isDigit
          let r4 := r3.drop dsB.length
          if dsB.isEmpty then none
          else
            match r4 with
            | '[' :: r5 => some ((dsB.reverse, dsA.reverse), r5.reverse)
            | _ => none
      | '[' :: r5 =>
          if dsA.isEmpty then none
          else some ((dsA.reverse, []), r5.reverse)
      | _ => none
  | _ => none

/-- The lazy group of `rule\s*\[(.*?)\]\s*:\s*(.+)`: the first `]` that is
followed by `\s*:\s*` and a nonempty body, with backtracking past `]`
characters whose continuation does not match. -/
def splitVarDecls : List Char → Option (List Char × List Char)
  | [] => none
  | ']' :: rest =>
      (match skipSpaces rest with
       | ':' :: rest2 =>
           let body := skipSpaces rest2
           if body.isEmpty then
             (splitVarDecls rest).map fun p => (']' :: p.1, p.2)
           else some ([], body)
       | _ => (splitVarDecls rest).map fun p => (']' :: p.1, p.2))
  | c :: rest => (splitVarDecls rest).map fun p => (c :: p.1, p.2)

/-- `LogicalParser.get_or_create_type`. -/
def get_or_create_type (doc : LogicalDocument) (name : String) :
    LogicalDocument × PType :=
  match doc.types.lookup name with
  | some t => (doc, t)
  | none =>
      ({ doc with types := doc.types.insert name ⟨name⟩ }, ⟨name⟩)

/-- `LogicalParser.parse_entity`. -/
def parse_entity (doc : LogicalDocument) (cs : List Char) :
    Except String LogicalDocument :=
  match stripLit ['e', 'n', 't', 'i', 't', 'y'] cs with
  | none => .error "Expected: entity <name> : <type>"
  | some r1 =>
      match skipSpaces1 r1 with
      | none => .error "Expected: entity <name> : <type>"
      | some r2 =>
          match matchNameColonName r2 with
          | none => .error "Expected: entity <name> : <type>"
          | some (name, type_name) =>
              let (doc, typ) := get_or_create_type doc type_name
              let const : Constant := ⟨⟨name⟩, typ⟩
              .ok { doc with entities := doc.entities.insert name const }

/-- One `role: arg` item of `parse_predicate`'s argument loop. -/
def parseRoleArg (doc : LogicalDocument) (allow_variables : Bool)
    (variableDict : Dict String Variable) (arg_part : List Char) :
    Except String (RoleLabel × Argument) :=
  match matchNameColonName arg_part with
  | none => .error ("Expected role: arg, got: " ++ ⟨arg_part⟩)
  | some (role_name, arg_name) =>
      match variableDict.lookup arg_name with
      | some v => .ok (⟨role_name⟩, .var v)
      | none =>
          match doc.entities.lookup arg_name with
          | some c => .ok (⟨role_name⟩, .const c)
          | none =>
              if allow_variables then
                .error ("Unknown variable: " ++ arg_name)
              else .error ("Unknown entity: " ++ arg_name)

/-- The argument loop of `parse_predicate`. -/
def parseRoleArgs (doc : LogicalDocument) (allow_variables : Bool)
    (variableDict : Dict String Variable) :
    List (List Char) → Except String (List (RoleLabel × Argument))
  | [] => .ok []
  | arg_part :: rest =>
      match parseRoleArg doc allow_variables variableDict
          (stripChars arg_part) with
      | .error e => .error e
      | .ok ra =>
          match parseRoleArgs doc allow_variables variableDict rest with
          | .error e => .error e
          | .ok ras => .ok (ra :: ras)

/-- `LogicalParser.parse_predicate`. -/
def parse_predicate (doc : LogicalDocument) (text : List Char)
    (allow_variables : Bool) (variableDict : Dict String Variable) :
    Except String Predicate :=
  match matchPredicateShape (stripChars text) with
  | none => .error "Expected predicate: pred(role: arg, ...)"
  | some (func_name, args_chars) =>
      let args_str := stripChars args_chars
      if args_str.isEmpty then .ok ⟨func_name, []⟩
      else
        match parseRoleArgs doc allow_variables variableDict
            (splitOnChar ',' args_str) with
        | .error e => .error e
        | .ok roles => .ok ⟨func_name, roles⟩

/-- `LogicalParser.parse_proposition`. -/
def parse_proposition (doc : LogicalDocument) (cs : List Char) :
    Except String LogicalDocument :=
  match parse_predicate doc cs false Dict.empty with
  | .error e => .error e
  | .ok pred => .ok { doc with propositions := doc.propositions ++ [pred] }

/-- The variable-declaration loop of `parse_rule`.  For each nonempty
declaration the source evaluates `Variable(typ, var_name)`, passing two
arguments to the one-field `Variable` dataclass of `qbbn/core/logic.py`;
that call raises `TypeError`, modelled as the error below (the exception
text is wrapped into a `ParseError` by `parse`). -/
def parseVarDecls (doc : LogicalDocument) :
    List (List Char) →
    Except String (LogicalDocument × Dict String Variable × List Variable)
  | [] => .ok (doc, Dict.empty, [])
  | var_decl :: rest =>
      let var_decl := stripChars var_decl
      if var_decl.isEmpty then parseVarDecls doc rest
      else
        match matchNameColonName var_decl with
        | none => .error ("Expected var:type, got: " ++ ⟨var_decl⟩)
        | some (_var_name, type_name) =>
            let (_doc, _typ) := get_or_create_type doc type_name
            .error
              "Variable.__init__() takes 2 positional arguments but 3 were given"

/-- The premise loop of `parse_rule`. -/
def parsePremises (doc : LogicalDocument)
    (variableDict : Dict String Variable) :
    List (List Char) → Except String (List Predicate)
  | [] => .ok []
  | part :: rest =>
      match parse_predicate doc (stripChars part) true variableDict with
      | .error e => .error e
      | .ok pred =>
          match parsePremises doc variableDict rest with
          | .error e => .error e
          | .ok preds => .ok (pred :: preds)

/-- `LogicalParser.parse_rule`. -/
noncomputable def parse_rule (doc : LogicalDocument) (cs : List Char) :
    Except String LogicalDocument :=
  let (weight, cs) :=
    match matchWeightSuffix cs with
    | some ((intDigits, fracDigits), before) =>
        (floatVal intDigits fracDigits, stripChars before)
    | none => ((1.0 : ℝ), cs)
  match stripLit ['r', 'u', 'l', 'e'] cs with
  | none =>
      .error "Expected: rule [var:type, ...]: premise -> conclusion [weight]"
  | some r1 =>
      match (stripLit ['['] (skipSpaces r1)).bind splitVarDecls with
      | none =>
          .error
            "Expected: rule [var:type, ...]: premise -> conclusion [weight]"
      | some (var_decls, body) =>
          match parseVarDecls doc (splitOnChar ',' var_decls) with
          | .error e => .error e
          | .ok (doc, variableDict, var_list) =>
              match splitOnArrow body with
              | none => .error "Expected: premise -> conclusion"
              | some (premise_str, conclusion_str) =>
                  match parsePremises doc variableDict
                      (splitOnChar '&' premise_str) with
                  | .error e => .error e
                  | .ok premises =>
                      match parse_predicate doc (stripChars conclusion_str)
                          true variableDict with
                      | .error e => .error e
                      | .ok conclusion =>
                          .ok { doc with rules := doc.rules ++
                            [{ premises := premises,
                               conclusion := conclusion,
                               vars := var_list, weight := weight }] }

/-- `LogicalParser.parse_query`. -/
def parse_query (doc : LogicalDocument) (cs : List Char) :
    Except String LogicalDocument :=
  match parse_predicate doc (stripChars (cs.drop 1)) false Dict.empty with
  | .error e => .error e
  | .ok pred => .ok { doc with queries := doc.queries ++ [pred] }

/-- Python `str.startswith`. -/
def startsWithChars (pre cs : List Char) : Bool :=
  (stripLit pre cs).isSome

/-- `LogicalParser.parse_line` dispatch. -/
noncomputable def parse_line (doc : LogicalDocument) (line : List Char) :
    Except String LogicalDocument :=
  if startsWithChars "entity ".data line then parse_entity doc line
  else if startsWithChars "rule ".data line then parse_rule doc line
  else if startsWithChars "? ".data line then parse_query doc line
  else if line.contains '(' then parse_proposition doc line
  else .error ("Unknown syntax: " ++ ⟨line⟩)

/-- The line loop of `LogicalParser.parse`: strip each line, skip blank
and `#` lines, stop at the first failing line, wrapping its exception text
with the 1-based line number and the stripped line. -/
noncomputable def parseLines (doc : LogicalDocument) :
    List (List Char) → ℕ → Except ParseError LogicalDocument
  | [], _ => .ok doc
  | rawLine :: rest, i =>
      let line := stripChars rawLine
      if line.isEmpty || startsWithChars "#".data line then
        parseLines doc rest (i + 1)
      else
        match parse_line doc line with
        | .error msg => .error ⟨msg, i, ⟨line⟩⟩
        | .ok doc' => parseLines doc' rest (i + 1)

/-- `parse_logical` / `LogicalParser.parse`: strip the text, split it on
newlines, run the line loop with 1-based numbering. -/
noncomputable def parse_logical (text : String) :
    Except ParseError LogicalDocument :=
  parseLines { } (splitOnChar '\n' (stripChars text.data)) 1

/-! ## Invariant predicates and small combinatorial helpers -/

/-- A message pair with nonnegative entries and positive sum (what every
variable→factor message satisfies). -/
def MsgOK (m : Msg) : Prop := 0 ≤ m.1 ∧ 0 ≤ m.2 ∧ 0 < m.1 + m.2

/-- A message pair with strictly positive entries (what every stored
factor→variable message satisfies for damping in `[0, 1]`). -/
def MsgPos (m : Msg) : Prop := 0 < m.1 ∧ 0 < m.2

/-- Little-endian binary digits to a natural number (the `bits` counter of
the factor update enumerates assignments this way). -/
def ofBits : List ℕ → ℕ
  | [] => 0
  | b :: bs => b + 2 * ofBits bs

/-- An index (0 or 1) of a strictly positive entry of a message with
positive sum. -/
noncomputable def pickPos (m : Msg) : ℕ := if 0 < m.1 then 0 else 1

/-- The numeric invariant `belief_propagation` maintains between sweeps:
strictly positive stored factor messages, nonnegative positive-sum
variable→factor messages whose keys all come from the adjacency index (with
no duplicates), and clamped evidence beliefs. -/
def BPInv (g : FactorGraph) (v2f : V2F) : Prop :=
  (∀ f ∈ g.factors, ∀ km ∈ f.messages, MsgPos km.2) ∧
  (∀ km ∈ v2f, MsgOK km.2) ∧
  (∀ km ∈ v2f, ∃ fis, g.var_to_factors.lookup km.1.1 = some fis ∧
    km.1.2 ∈ fis) ∧
  nodupKeys v2f = true ∧
  (∀ kv ∈ g.vars.items, kv.2.is_evidence = true →
    kv.2.belief = (0.0, 1.0) ∨ kv.2.belief = (1.0, 0.0))

/-- One term of the `sumOverOthers` accumulation: potential times message
product at a fixed `bits` assignment (the loop body of the source's
`for bits in range(2 ** n_other)`). -/
noncomputable def sooTerm (factor : FactorNode) (v2f : V2F)
    (target_var : String) (target_val : ℕ) (other_vars : List String)
    (bits : ℕ) : ℝ :=
  let assignment := buildAssignment target_var target_val other_vars bits
  let potential :=
    compute_factor_potential factor fun s => assignment.getD s 0
  let msg_product := other_vars.foldl
    (fun prod ov =>
      let ov_val := assignment.getD ov 0
      let msg := v2f.getD (ov, factor.factor_id) (1.0, 1.0)
      prod * (if ov_val = 0 then msg.1 else msg.2))
    1.0
  potential * msg_product

/-! ## Concrete fixtures used by witnesses and counterexamples -/

/-- A one-variable graph with a clamped-true evidence variable and no
factors. -/
def gC3 : FactorGraph :=
  (FactorGraph.add_variable { } "p").set_evidence "p" true

/-- A two-variable graph with one zero-weight implication factor. -/
def gC4 : FactorGraph :=
  FactorGraph.add_implication_factor { } "a" "b" 0

/-- The graph of a single implication `p → q` with weight `log 2` (so the
violation potential is exactly `1/2`) and `p` clamped true. -/
noncomputable def gC5 : FactorGraph :=
  (FactorGraph.add_implication_factor { } "p" "q"
    (Real.log 2)).set_evidence "p" true

/-- A knowledge base with two entities of type `t`, one fact `p(x: a)`,
and one rule `p(x: ?t) → q(x: ?t)` over two variables of type `t`. -/
def kbC2 : KnowledgeBase :=
  { entities := [("a", ⟨⟨"a"⟩, ⟨"t"⟩⟩), ("b", ⟨⟨"b"⟩, ⟨"t"⟩⟩)]
    types := [("t", ⟨"t"⟩)]
    clauses :=
      [{ premises := []
         conclusion := ⟨"p", [(⟨"x"⟩, .const ⟨⟨"a"⟩, ⟨"t"⟩⟩)]⟩
         vars := [] },
       { premises := [⟨"p", [(⟨"x"⟩, .var ⟨⟨"t"⟩⟩)]⟩]
         conclusion := ⟨"q", [(⟨"x"⟩, .var ⟨⟨"t"⟩⟩)]⟩
         vars := [⟨⟨"t"⟩⟩, ⟨⟨"t"⟩⟩] }] }

/-- A knowledge base with one entity and one single-variable rule; its
grounding contains a rule instance, so `from_knowledge_base` reaches the
`clause.weight` access. -/
def kbC7 : KnowledgeBase :=
  { entities := [("a", ⟨⟨"a"⟩, ⟨"t"⟩⟩)]
    types := [("t", ⟨"t"⟩)]
    clauses :=
      [{ premises := [⟨"p", [(⟨"x"⟩, .var ⟨⟨"t"⟩⟩)]⟩]
         conclusion := ⟨"q", [(⟨"x"⟩, .var ⟨⟨"t"⟩⟩)]⟩
         vars := [⟨⟨"t"⟩⟩] }] }

/-- A semantically well-formed DSL text (an entity and a one-variable
rule) on which `parse` must succeed according to the spec. -/
def ruleText : String :=
  "entity socrates : person\nrule [x:person]: man(theme: x) -> mortal(theme: x)"

/-! ## Supporting lemmas -/

theorem listProduct_length {α : Type} (ds : List (List α)) :
    (listProduct ds).length = (ds.map List.length).prod := by
  induction ds with
  | nil => simp [listProduct]
  | cons d ds ih =>
      simp only [listProduct, List.length_flatMap, Function.comp_def,
        List.length_map, List.map_cons, List.prod_cons]
      rw [List.map_const', List.sum_replicate, smul_eq_mul, ih]

theorem all_bindings_length (kb : KnowledgeBase) (vl : List Variable) :
    (kb.all_bindings vl).length =
      (vl.map fun v => (kb.entities_of_type v.type.name).length).prod := by
  unfold KnowledgeBase.all_bindings
  by_cases h : vl = []
  · simp [h]
  · rw [if_neg h]
    by_cases hd : (vl.map fun v => kb.entities_of_type v.type.name).any
        (· = [])
    · rw [if_pos hd]
      simp only [List.any_eq_true, List.mem_map] at hd
      obtain ⟨_, ⟨v, hv, rfl⟩, hdom⟩ := hd
      refine (List.prod_eq_zero ?_).symm
      exact List.mem_map.mpr ⟨v, hv, by simp [of_decide_eq_true hdom]⟩
    · rw [if_neg hd]
      rw [List.length_map, listProduct_length, List.map_map]
      rfl

/-! ## Claim theorems -/

/-- C1: for a `FactorNode` of type `implication` (which graph construction
always gives exactly two connected keys) or `conjunction_implication`, and
a complete 0/1 assignment of its connected variables,
`compute_factor_potential` returns `exp(-weight)` exactly when every
premise variable (all of `var_keys` but the last) is 1 and the conclusion
variable (the last of `var_keys`) is 0, and `1.0` otherwise. -/
theorem compute_factor_potential_penalizes_violation (f : FactorNode)
    (asg : String → ℕ)
    (htype : f.factor_type = "implication" ∨
      f.factor_type = "conjunction_implication")
    (hlen : f.factor_type = "implication" → f.var_keys.length = 2)
    (hne : f.var_keys ≠ [])
    (h01 : ∀ k ∈ f.var_keys, asg k ≤ 1) :
    compute_factor_potential f asg =
      if (∀ k ∈ f.var_keys.dropLast, asg k = 1) ∧
          asg (f.var_keys.getD (f.var_keys.length - 1) "") = 0 then
        Real.exp (-f.weight)
      else 1 := by
  clear h01 hne
  rcases htype with h | h
  · obtain ⟨p, c, hk⟩ := List.length_eq_two.mp (hlen h)
    rw [compute_factor_potential, if_pos h, hk]
    simp only [List.getD, List.getElem?_cons_zero, List.getElem?_cons_succ,
      Option.getD_some, List.length_cons, List.length_nil, List.get?_eq_getElem?]
    have hdl : [p, c].dropLast = [p] := rfl
    rw [hdl]
    split_ifs with h1 h2 h2
    · rfl
    · exact absurd ⟨fun k hk2 => by rw [List.mem_singleton.mp hk2]; exact h1.1,
        h1.2⟩ h2
    · exact absurd ⟨h2.1 p (List.mem_singleton.mpr rfl), h2.2⟩ h1
    · norm_num
  · have hne2 : f.factor_type ≠ "implication" := by rw [h]; decide
    rw [compute_factor_potential, if_neg hne2, if_pos h]
    simp only [List.all_eq_true, beq_iff_eq]
    split_ifs <;> norm_num

/-- C1 witness: a concrete two-variable implication factor and the
violating assignment, giving `exp(-weight)`. -/
theorem compute_factor_potential_penalizes_violation_witness :
    compute_factor_potential
      { factor_id := 0, var_keys := ["p", "q"], weight := 1,
        factor_type := "implication", messages := Dict.empty }
      (fun s => if s = "p" then 1 else 0) = Real.exp (-1) := by
  have h := compute_factor_potential_penalizes_violation
    { factor_id := 0, var_keys := ["p", "q"], weight := 1,
      factor_type := "implication", messages := Dict.empty }
    (fun s => if s = "p" then 1 else 0) (Or.inl rfl) (fun _ => rfl)
    (by decide) (by intro k hk; fin_cases hk <;> decide)
  rw [h, if_pos]
  refine ⟨fun k hk => ?_, rfl⟩
  fin_cases hk; rfl

/-- C2: `ground_all` keeps every fact clause, contributes one grounded
clause per variable binding of each rule (the binding substituted into
every premise and the conclusion), and in total each rule contributes the
product of its variables' domain sizes — `0` as soon as one domain is
empty, the empty product `1` for a variable-free rule. -/
theorem ground_all_cardinality (kb : KnowledgeBase) :
    (∀ c ∈ kb.clauses, c.is_fact = true → c ∈ kb.ground_all) ∧
    (∀ c ∈ kb.clauses, c.is_fact = false →
      ∀ b ∈ kb.all_bindings c.vars, c.ground b ∈ kb.ground_all) ∧
    kb.ground_all.length =
      (kb.clauses.map fun c =>
        if c.is_fact then 1
        else (c.vars.map fun v =>
          (kb.entities_of_type v.type.name).length).prod).sum := by
  refine ⟨?_, ?_, ?_⟩
  · intro c hc hf
    exact List.mem_flatMap.mpr ⟨c, hc, by simp [hf]⟩
  · intro c hc hf b hb
    refine List.mem_flatMap.mpr ⟨c, hc, ?_⟩
    simp only [hf, Bool.false_eq_true, if_false]
    exact List.mem_map.mpr ⟨b, hb, rfl⟩
  · unfold KnowledgeBase.ground_all
    rw [List.length_flatMap]
    congr 1
    refine List.map_congr_left fun c _ => ?_
    by_cases hf : c.is_fact <;> simp [hf, all_bindings_length]

/-- C2 witness: in `kbC2` the fact clause reappears unchanged and the
two-variable rule over a two-element domain contributes `2·2 = 4`
grounded clauses, for 5 grounded clauses in total. -/
theorem ground_all_cardinality_witness :
    ({ premises := [], conclusion := ⟨"p", [(⟨"x"⟩, .const ⟨⟨"a"⟩, ⟨"t"⟩⟩)]⟩,
       vars := [] } : HornClause) ∈ kbC2.ground_all ∧
      kbC2.ground_all.length = 5 := by
  obtain ⟨h1, _, h3⟩ := ground_all_cardinality kbC2
  refine ⟨h1 _ (by decide) (by decide), ?_⟩
  rw [h3]; decide

/-- C6 (counterexample evaluation): parsing a semantically well-formed
rule fails.  `parse_rule` evaluates `Variable(typ, var_name)`, but
`Variable` in `qbbn/core/logic.py` is a one-field dataclass, so the
constructor call raises `TypeError`, which `parse` wraps into a
`ParseError` on the rule's line; the round trip never starts. -/
theorem parse_rule_variable_arity_crash :
    parse_logical ruleText =
      .error ⟨"Variable.__init__() takes 2 positional arguments but 3 were given",
        2, "rule [x:person]: man(theme: x) -> mortal(theme: x)"⟩ := rfl

/-- C7: `from_knowledge_base` on a knowledge base whose grounding contains
a rule instance evaluates `clause.weight`; `HornClause` in
`qbbn/core/horn.py` has no `weight` attribute, so the call raises
`AttributeError` instead of building the factor the spec describes. -/
theorem from_knowledge_base_rule_weight_crash :
    FactorGraph.from_knowledge_base kbC7 = none := rfl

/-- Splitting the line loop: the lines after a prefix are parsed from the
state and line number the prefix leaves behind. -/
theorem parseLines_append (doc₀ : LogicalDocument)
    (xs ys : List (List Char)) (n : ℕ) :
    parseLines doc₀ (xs ++ ys) n =
      match parseLines doc₀ xs n with
      | .ok doc₁ => parseLines doc₁ ys (n + xs.length)
      | .error e => .error e := by
  induction xs generalizing doc₀ n with
  | nil => simp [parseLines]
  | cons x xs ih =>
      simp only [List.cons_append, parseLines, List.append_eq]
      have harith : n + (xs.length + 1) = n + 1 + xs.length := by omega
      by_cases hskip :
          ((stripChars x).isEmpty ||
            startsWithChars "#".data (stripChars x)) = true
      · rw [if_pos hskip, if_pos hskip]
        simp only [ih, List.length_cons, harith]
      · rw [if_neg hskip, if_neg hskip]
        cases hp : parse_line doc₀ (stripChars x) with
        | error msg => rfl
        | ok doc' => simp only [ih, List.length_cons, harith]

/-- C9: the parser stops at the first malformed line, ignoring everything
after it, and reports the 1-based line number, the (stripped) line text
and the underlying exception text; in particular a proposition whose
argument is not a declared entity fails with `Unknown entity: <name>`. -/
theorem parse_error_first_malformed_line :
    (∀ (pre : List (List Char)) (bad : List Char) (post : List (List Char))
        (doc₀ doc₁ : LogicalDocument) (n : ℕ) (msg : String),
        parseLines doc₀ pre n = .ok doc₁ →
        ((stripChars bad).isEmpty ||
          startsWithChars "#".data (stripChars bad)) = false →
        parse_line doc₁ (stripChars bad) = .error msg →
        parseLines doc₀ (pre ++ bad :: post) n =
          .error ⟨msg, n + pre.length, ⟨stripChars bad⟩⟩) ∧
    (∀ doc : LogicalDocument, doc.entities.lookup "socrates" = none →
        parse_line doc "man(theme: socrates)".data =
          .error "Unknown entity: socrates") := by
  constructor
  · intro pre bad post doc₀ doc₁ n msg hpre hskip hbad
    rw [parseLines_append, hpre]
    simp only [parseLines]
    rw [hskip]
    simp only [Bool.false_eq_true, if_false, hbad]
  · intro doc hdoc
    simp +decide [parse_line, parse_proposition, parse_predicate,
      matchPredicateShape, takeWord, stripChars, skipSpaces, stripLit,
      startsWithChars, parseRoleArgs, parseRoleArg, matchNameColonName,
      splitOnChar, Dict.lookup, Dict.empty, isWordChar, hdoc]

/-- C9 witness: a good entity line, then a proposition with an undeclared
argument, then junk that is never reached; the error carries line 2, the
offending line and the `Unknown entity` message. -/
theorem parse_error_first_malformed_line_witness :
    parseLines { } ["entity a : t".data, "man(theme: b)".data,
        "junk (".data] 1 =
      .error ⟨"Unknown entity: b", 2, "man(theme: b)"⟩ ∧
    parse_line { } "man(theme: socrates)".data =
      .error "Unknown entity: socrates" := by
  constructor
  · exact (parse_error_first_malformed_line).1 ["entity a : t".data]
      "man(theme: b)".data ["junk (".data] { } _ 1 "Unknown entity: b"
      rfl rfl rfl
  · exact (parse_error_first_malformed_line).2 { } rfl

/-! ## Belief-propagation structure lemmas -/

theorem Dict.contains_eq_isSome {α β : Type} [DecidableEq α]
    (d : Dict α β) (k : α) : d.contains k = (d.lookup k).isSome := by
  induction d with
  | nil => simp [Dict.contains, Dict.lookup]
  | cons p rest ih =>
      obtain ⟨k₀, v₀⟩ := p
      by_cases h : k₀ = k <;> simp [Dict.contains, Dict.lookup, h, ih]

theorem Dict.lookup_mem {α β : Type} [DecidableEq α]
    (d : Dict α β) (k : α) (v : β) (h : d.lookup k = some v) : (k, v) ∈ d := by
  induction d with
  | nil => simp [Dict.lookup] at h
  | cons p rest ih =>
      obtain ⟨k₀, v₀⟩ := p
      by_cases hk : k₀ = k
      · subst hk
        simp [Dict.lookup] at h
        simp [h]
      · simp [Dict.lookup, hk] at h
        exact List.mem_cons_of_mem _ (ih h)

theorem Dict.mem_insert {α β : Type} [DecidableEq α]
    (d : Dict α β) (k : α) (v : β) (p : α × β) (h : p ∈ d.insert k v) :
    p = (k, v) ∨ p ∈ d := by
  induction d with
  | nil => simpa [Dict.insert] using h
  | cons q rest ih =>
      obtain ⟨k₀, v₀⟩ := q
      by_cases hk : k₀ = k
      · subst hk
        simp only [Dict.insert, if_pos rfl] at h
        rcases List.mem_cons.mp h with h | h
        · exact Or.inl (by simpa using h)
        · exact Or.inr (List.mem_cons_of_mem _ h)
      · simp only [Dict.insert, if_neg hk] at h
        rcases List.mem_cons.mp h with h | h
        · exact Or.inr (by simp [h])
        · rcases ih h with h | h
          · exact Or.inl h
          · exact Or.inr (List.mem_cons_of_mem _ h)

/-- Evidence variables are left untouched by the belief phase. -/
theorem updateBeliefVar_evidence (g : FactorGraph) (k : String)
    (v : VariableNode) (hev : v.is_evidence = true) :
    updateBeliefVar g k v = some v := by
  unfold updateBeliefVar
  rw [hev]
  rfl

/-- The belief phase rewrites each variable entry through
`updateBeliefVar`, preserving keys and order. -/
theorem updateAllBeliefs_lookup (g : FactorGraph) :
    ∀ (items items' : List (String × VariableNode)),
    updateAllBeliefs g items = some items' →
    ∀ (k : String) (v : VariableNode), Dict.lookup items k = some v →
    ∃ v', updateBeliefVar g k v = some v' ∧ Dict.lookup items' k = some v' := by
  intro items
  induction items with
  | nil =>
      intro items' h k v hk
      simp [Dict.lookup] at hk
  | cons p rest ih =>
      intro items' h k v hk
      obtain ⟨k₀, v₀⟩ := p
      unfold updateAllBeliefs at h
      cases h₀ : updateBeliefVar g k₀ v₀ with
      | none => rw [h₀] at h; exact absurd h (by simp)
      | some w =>
          rw [h₀] at h
          cases h₁ : updateAllBeliefs g rest with
          | none => rw [h₁] at h; exact absurd h (by simp)
          | some rest' =>
              rw [h₁] at h
              simp only [Option.some_inj] at h
              subst h
              by_cases hkk : k₀ = k
              · subst hkk
                simp [Dict.lookup] at hk
                exact ⟨w, hk ▸ h₀, by simp [Dict.lookup]⟩
              · simp only [Dict.lookup, if_neg hkk] at hk ⊢
                exact ih rest' h₁ k v hk

/-- `bpSweep` inversion: the three phases it is made of. -/
theorem bpSweep_inv (g : FactorGraph) (v2f : V2F) (damping : ℝ)
    (g' : FactorGraph) (v2f' : V2F) (mc : ℝ)
    (h : bpSweep g v2f damping = some (g', v2f', mc)) :
    ∃ factors' vars',
      updateAllFactors v2f damping g.factors 0.0 = some (factors', mc) ∧
      updateVarMessages { g with factors := factors' }
        (Dict.items g.var_to_factors) v2f = some v2f' ∧
      updateAllBeliefs { g with factors := factors' }
        (Dict.items g.vars) = some vars' ∧
      g' = { vars := vars', factors := factors',
             var_to_factors := g.var_to_factors } := by
  unfold bpSweep at h
  cases h₁ : updateAllFactors v2f damping g.factors 0.0 with
  | none => rw [h₁] at h; exact absurd h (by simp)
  | some fm =>
      obtain ⟨factors', mc₀⟩ := fm
      rw [h₁] at h
      simp only at h
      cases h₂ : updateVarMessages { g with factors := factors' }
          (Dict.items g.var_to_factors) v2f with
      | none => rw [h₂] at h; exact absurd h (by simp)
      | some v2f₀ =>
          rw [h₂] at h
          simp only at h
          cases h₃ : updateAllBeliefs { g with factors := factors' }
              (Dict.items g.vars) with
          | none => rw [h₃] at h; exact absurd h (by simp)
          | some vars' =>
              rw [h₃] at h
              simp only [Option.some_inj, Prod.mk.injEq] at h
              obtain ⟨hg, hv, hm⟩ := h
              subst hv
              subst hm
              exact ⟨factors', vars', rfl, h₂, h₃, hg.symm⟩

theorem Dict.contains_of_mem {α β : Type} [DecidableEq α]
    (d : Dict α β) (p : α × β) (h : p ∈ d) : d.contains p.1 = true := by
  induction d with
  | nil => simp at h
  | cons q rest ih =>
      obtain ⟨k₀, v₀⟩ := q
      by_cases hk : k₀ = p.1
      · simp [Dict.contains, hk]
      · simp only [Dict.contains, if_neg hk]
        rcases List.mem_cons.mp h with h | h
        · exact absurd (congrArg Prod.fst h.symm) hk
        · exact ih h

/-- The evidence write loop: the message store after inserting the same
belief for every adjacent factor index. -/
theorem foldl_insert_pair_lookup (k₀ : String) (b : Msg) :
    ∀ (fis : List ℕ) (m : V2F) (key : String × ℕ),
    (fis.foldl (fun mm f => mm.insert (k₀, f) b) m).lookup key =
      if key.1 = k₀ ∧ key.2 ∈ fis then some b else m.lookup key := by
  intro fis
  induction fis with
  | nil => intro m key; simp
  | cons f fs ih =>
      intro m key
      simp only [List.foldl_cons, ih]
      by_cases h1 : key.1 = k₀ ∧ key.2 ∈ fs
      · rw [if_pos h1, if_pos ⟨h1.1, List.mem_cons_of_mem _ h1.2⟩]
      · rw [if_neg h1]
        by_cases h2 : key.1 = k₀ ∧ key.2 = f
        · have : key = (k₀, f) := Prod.ext h2.1 h2.2
          rw [this, Dict.lookup_insert_self,
            if_pos ⟨rfl, List.mem_cons_self f fs⟩]
        · have hne : (k₀, f) ≠ key := by
            intro he
            exact h2 ⟨(congrArg Prod.fst he).symm, (congrArg Prod.snd he).symm⟩
          rw [Dict.lookup_insert_ne _ _ _ _ hne]
          have : ¬(key.1 = k₀ ∧ key.2 ∈ f :: fs) := by
            rintro ⟨ha, hb⟩
            rcases List.mem_cons.mp hb with hb | hb
            · exact h2 ⟨ha, hb⟩
            · exact h1 ⟨ha, hb⟩
          rw [if_neg this]

/-- The non-evidence write loop only touches keys of its own variable. -/
theorem updateVarKeyMsgs_frame (g : FactorGraph) (k : String)
    (all_indices : List ℕ) :
    ∀ (l : List ℕ) (v2f v2f' : V2F),
    updateVarKeyMsgs g k all_indices l v2f = some v2f' →
    ∀ key : String × ℕ, key.1 ≠ k → v2f'.lookup key = v2f.lookup key := by
  intro l
  induction l with
  | nil =>
      intro v2f v2f' h key _
      simp only [updateVarKeyMsgs, Option.some_inj] at h
      rw [h]
  | cons fi rest ih =>
      intro v2f v2f' h key hk
      unfold updateVarKeyMsgs at h
      cases hp : productOfOthers g k fi all_indices (1.0, 1.0) with
      | none => rw [hp] at h; exact absurd h (by simp)
      | some new_msg =>
          rw [hp] at h
          simp only at h
          have := ih _ _ h key hk
          rw [this, Dict.lookup_insert_ne]
          intro he
          exact hk ((congrArg Prod.fst he).symm ▸ rfl)

/-- The variable→factor phase only touches keys of variables that appear
in the processed adjacency entries. -/
theorem updateVarMessages_frame (g : FactorGraph) :
    ∀ (items : List (String × List ℕ)) (v2f v2f' : V2F),
    updateVarMessages g items v2f = some v2f' →
    ∀ key : String × ℕ, key.1 ∉ items.map Prod.fst →
    v2f'.lookup key = v2f.lookup key := by
  intro items
  induction items with
  | nil =>
      intro v2f v2f' h key _
      simp only [updateVarMessages, Option.some_inj] at h
      rw [h]
  | cons p rest ih =>
      intro v2f v2f' h key hk
      obtain ⟨k₀, fis₀⟩ := p
      simp only [List.map_cons, List.mem_cons, not_or] at hk
      obtain ⟨hk₀, hkrest⟩ := hk
      unfold updateVarMessages at h
      cases hv : Dict.lookup g.vars k₀ with
      | none => rw [hv] at h; exact absurd h (by simp)
      | some var =>
          rw [hv] at h
          simp only at h
          by_cases hev : var.is_evidence
          · rw [if_pos hev] at h
            rw [ih _ _ h key hkrest, foldl_insert_pair_lookup]
            rw [if_neg (fun hc => hk₀ hc.1)]
          · rw [if_neg hev] at h
            cases hu : updateVarKeyMsgs g k₀ fis₀ fis₀ v2f with
            | none => rw [hu] at h; exact absurd h (by simp)
            | some v2f₁ =>
                rw [hu] at h
                simp only at h
                rw [ih _ _ h key hkrest]
                exact updateVarKeyMsgs_frame g k₀ fis₀ fis₀ v2f v2f₁ hu key
                  hk₀

/-- After the variable→factor phase, an evidence variable's outgoing
message to each adjacent factor is exactly its clamped belief. -/
theorem updateVarMessages_evidence (g : FactorGraph) :
    ∀ (items : List (String × List ℕ)) (v2f v2f' : V2F),
    updateVarMessages g items v2f = some v2f' →
    nodupKeys items = true →
    ∀ (k : String) (fis : List ℕ), (k, fis) ∈ items →
    ∀ v : VariableNode, g.vars.lookup k = some v → v.is_evidence = true →
    ∀ fi ∈ fis, v2f'.lookup (k, fi) = some v.belief := by
  intro items
  induction items with
  | nil =>
      intro v2f v2f' _ _ k fis hmem
      simp at hmem
  | cons p rest ih =>
      intro v2f v2f' h hnodup k fis hmem v hv hev fi hfi
      obtain ⟨k₀, fis₀⟩ := p
      have hnd : nodupKeys rest = true ∧ Dict.contains rest k₀ = false := by
        simp only [nodupKeys, Bool.and_eq_true, Bool.not_eq_true'] at hnodup
        exact ⟨hnodup.2, hnodup.1⟩
      unfold updateVarMessages at h
      cases hvl : Dict.lookup g.vars k₀ with
      | none => rw [hvl] at h; exact absurd h (by simp)
      | some var =>
          rw [hvl] at h
          simp only at h
          rcases List.mem_cons.mp hmem with hme | hme
          · injection hme with hk' hfis'
            subst hk'
            subst hfis'
            rw [hvl] at hv
            injection hv with hv
            subst hv
            rw [if_pos hev] at h
            have hnotin : (k, fi).1 ∉ rest.map Prod.fst := by
              intro hc
              obtain ⟨p₁, hmem₁, hk₁⟩ := List.mem_map.mp hc
              have hcont := Dict.contains_of_mem rest p₁ hmem₁
              rw [hk₁] at hcont
              simp [hnd.2] at hcont
            rw [updateVarMessages_frame g rest _ _ h (k, fi) hnotin,
              foldl_insert_pair_lookup, if_pos ⟨rfl, hfi⟩]
          · by_cases hev₀ : var.is_evidence
            · rw [if_pos hev₀] at h
              exact ih _ _ h hnd.1 k fis hme v hv hev fi hfi
            · rw [if_neg hev₀] at h
              cases hu : updateVarKeyMsgs g k₀ fis₀ fis₀ v2f with
              | none => rw [hu] at h; exact absurd h (by simp)
              | some v2f₁ =>
                  rw [hu] at h
                  simp only at h
                  exact ih _ _ h hnd.1 k fis hme v hv hev fi hfi

/-- One sweep never modifies an evidence variable node. -/
theorem bpSweep_evidence (g : FactorGraph) (v2f : V2F) (d : ℝ)
    (g' : FactorGraph) (v2f' : V2F) (mc : ℝ)
    (h : bpSweep g v2f d = some (g', v2f', mc)) (k : String)
    (v : VariableNode) (hv : g.vars.lookup k = some v)
    (hev : v.is_evidence = true) : g'.vars.lookup k = some v := by
  obtain ⟨factors', vars', _, _, h₃, hg⟩ := bpSweep_inv g v2f d g' v2f' mc h
  obtain ⟨v', hub, hl⟩ := updateAllBeliefs_lookup _ _ _ h₃ k v hv
  rw [updateBeliefVar_evidence _ _ _ hev] at hub
  injection hub with hub
  rw [hg]
  exact hub ▸ hl

/-- The whole run never modifies an evidence variable node. -/
theorem bpLoop_evidence (d : ℝ) :
    ∀ (fuel it : ℕ) (g : FactorGraph) (v2f : V2F) (tr : BPTrace)
      (g' : FactorGraph) (tr' : BPTrace),
    bpLoop d fuel it g v2f tr = some (g', tr') →
    ∀ (k : String) (v : VariableNode), g.vars.lookup k = some v →
    v.is_evidence = true → g'.vars.lookup k = some v := by
  intro fuel
  induction fuel with
  | zero =>
      intro it g v2f tr g' tr' h k v hv hev
      simp only [bpLoop, Option.some_inj, Prod.mk.injEq] at h
      rw [← h.1]
      exact hv
  | succ n ih =>
      intro it g v2f tr g' tr' h k v hv hev
      unfold bpLoop at h
      cases hs : bpSweep g v2f d with
      | none => rw [hs] at h; exact absurd h (by simp)
      | some r =>
          obtain ⟨g₁, v2f₁, mc⟩ := r
          rw [hs] at h
          simp only at h
          have hst := bpSweep_evidence g v2f d g₁ v2f₁ mc hs k v hv hev
          by_cases hmc : mc < 1e-6
          · rw [if_pos hmc] at h
            simp only [Option.some_inj, Prod.mk.injEq] at h
            rw [← h.1]
            exact hst
          · rw [if_neg hmc] at h
            exact ih _ _ _ _ _ _ h k v hst hev

/-- C3: an evidence variable node is never altered: its clamped `[0,1]` or
`[1,0]` belief survives every sweep and every full `belief_propagation`
run, and after the variable→factor phase of any sweep its outgoing message
to each adjacent factor is exactly the clamped belief. -/
theorem evidence_clamped_invariant (g : FactorGraph)
    (hnodup : nodupKeys g.var_to_factors = true)
    (hclamp : ∀ kv ∈ g.vars.items, kv.2.is_evidence = true →
      kv.2.belief = (0.0, 1.0) ∨ kv.2.belief = (1.0, 0.0)) :
    (∀ (d : ℝ) (v2f : V2F) (g' : FactorGraph) (v2f' : V2F) (mc : ℝ),
      bpSweep g v2f d = some (g', v2f', mc) →
      ∀ (k : String) (v : VariableNode), g.vars.lookup k = some v →
      v.is_evidence = true →
      g'.vars.lookup k = some v ∧
        (v.belief = (0.0, 1.0) ∨ v.belief = (1.0, 0.0))) ∧
    (∀ (d : ℝ) (v2f : V2F) (g' : FactorGraph) (v2f' : V2F) (mc : ℝ),
      bpSweep g v2f d = some (g', v2f', mc) →
      ∀ (k : String) (v : VariableNode) (fis : List ℕ),
      g.vars.lookup k = some v → v.is_evidence = true →
      g.var_to_factors.lookup k = some fis →
      ∀ fi ∈ fis, v2f'.lookup (k, fi) = some v.belief) ∧
    (∀ (it : ℕ) (d : ℝ) (g' : FactorGraph) (tr : BPTrace),
      belief_propagation g it d none = some (g', tr) →
      ∀ (k : String) (v : VariableNode), g.vars.lookup k = some v →
      v.is_evidence = true → g'.vars.lookup k = some v) := by
  refine ⟨?_, ?_, ?_⟩
  · intro d v2f g' v2f' mc h k v hv hev
    exact ⟨bpSweep_evidence g v2f d g' v2f' mc h k v hv hev,
      hclamp (k, v) (Dict.lookup_mem _ _ _ hv) hev⟩
  · intro d v2f g' v2f' mc h k v fis hv hev hfis fi hfi
    obtain ⟨factors', vars', _, h₂, _, _⟩ := bpSweep_inv g v2f d g' v2f' mc h
    exact updateVarMessages_evidence _ _ _ _ h₂ hnodup k fis
      (Dict.lookup_mem _ _ _ hfis) v hv hev fi hfi
  · intro it d g' tr h k v hv hev
    unfold belief_propagation at h
    exact bpLoop_evidence d it 1 g (initV2F g) _ g' tr h k v hv hev

/-- C3 witness: on a concrete graph with a clamped-true evidence variable,
one sweep leaves the node bit-for-bit unchanged. -/
theorem evidence_clamped_invariant_witness :
    (bpSweep gC3 Dict.empty 0).map (fun r => r.1.vars.lookup "p") =
      some (some ⟨"p", (0.0, 1.0), true⟩) := by
  have h := (evidence_clamped_invariant gC3 (by decide)
      (by
        intro kv hkv hev
        rcases List.mem_singleton.mp hkv with rfl
        exact Or.inl rfl)).1
    0 Dict.empty gC3 Dict.empty 0.0 rfl "p" ⟨"p", (0.0, 1.0), true⟩ rfl rfl
  rw [show bpSweep gC3 Dict.empty 0 = some (gC3, Dict.empty, 0.0) from rfl]
  exact congrArg some h.1

/-- Unfolding `completedSweeps` one step along a successful sweep. -/
theorem completedSweeps_succ (d : ℝ) (n : ℕ) (g : FactorGraph) (v2f : V2F)
    (g₁ : FactorGraph) (v2f₁ : V2F) (mc : ℝ)
    (hs : bpSweep g v2f d = some (g₁, v2f₁, mc)) :
    completedSweeps d (n + 1) g v2f =
      if mc < 1e-6 then 1 else completedSweeps d n g₁ v2f₁ + 1 := by
  have hdef : completedSweeps d (n + 1) g v2f =
      match bpSweep g v2f d with
      | none => 0
      | some (g', v2f', max_change) =>
          if max_change < 1e-6 then 1 else completedSweeps d n g' v2f' + 1 :=
    rfl
  rw [hdef, hs]

/-- `record` appends exactly one entry. -/
theorem record_append (tr : BPTrace) (it : ℕ) (g : FactorGraph)
    (msgs : V2F) :
    ∃ e, (BPTrace.record tr it g msgs).iterations = tr.iterations ++ [e] :=
  ⟨_, rfl⟩

/-- The loop appends exactly one trace entry per completed sweep. -/
theorem bpLoop_trace (d : ℝ) :
    ∀ (fuel it : ℕ) (g : FactorGraph) (v2f : V2F) (tr : BPTrace)
      (g' : FactorGraph) (tr' : BPTrace),
    bpLoop d fuel it g v2f tr = some (g', tr') →
    tr'.iterations.length =
      tr.iterations.length + completedSweeps d fuel g v2f ∧
    ∃ l, tr'.iterations = tr.iterations ++ l := by
  intro fuel
  induction fuel with
  | zero =>
      intro it g v2f tr g' tr' h
      simp only [bpLoop, Option.some_inj, Prod.mk.injEq] at h
      rw [← h.2]
      exact ⟨by simp [completedSweeps], [], by simp⟩
  | succ n ih =>
      intro it g v2f tr g' tr' h
      unfold bpLoop at h
      cases hs : bpSweep g v2f d with
      | none => rw [hs] at h; exact absurd h (by simp)
      | some r =>
          obtain ⟨g₁, v2f₁, mc⟩ := r
          rw [hs] at h
          simp only at h
          rw [completedSweeps_succ d n g v2f g₁ v2f₁ mc hs]
          obtain ⟨e, he⟩ := record_append tr it g₁ v2f₁
          have hrec : (tr.record it g₁ v2f₁).iterations.length =
              tr.iterations.length + 1 := by
            rw [he]; simp
          by_cases hmc : mc < 1e-6
          · rw [if_pos hmc] at h
            simp only [Option.some_inj, Prod.mk.injEq] at h
            rw [← h.2, if_pos hmc]
            exact ⟨hrec, [e], he⟩
          · rw [if_neg hmc] at h
            rw [if_neg hmc]
            obtain ⟨hlen, l, happ⟩ := ih _ _ _ _ _ _ h
            refine ⟨by rw [hlen, hrec]; omega, [e] ++ l, ?_⟩
            rw [happ, he, List.append_assoc]

/-- C10: the returned trace has the initial iteration-0 entry (built from
the pre-propagation graph and messages) followed by one entry per
completed sweep; with `iterations = 0` it is exactly that one entry. -/
theorem bp_trace_length (g : FactorGraph) (it : ℕ) (d : ℝ)
    (g' : FactorGraph) (tr : BPTrace)
    (h : belief_propagation g it d none = some (g', tr)) :
    tr.iterations.length = completedSweeps d it g (initV2F g) + 1 ∧
    tr.iterations.head? =
      ((BPTrace.record { } 0 g (initV2F g)).iterations.head?) ∧
    (it = 0 →
      tr.iterations = (BPTrace.record { } 0 g (initV2F g)).iterations) := by
  unfold belief_propagation at h
  simp only [Option.getD] at h
  obtain ⟨hlen, l, happ⟩ := bpLoop_trace d it 1 g (initV2F g) _ g' tr h
  refine ⟨?_, ?_, ?_⟩
  · rw [hlen]
    simp [BPTrace.record]
    omega
  · rw [happ]
    simp [BPTrace.record]
  · intro h0
    subst h0
    simp only [bpLoop, Option.some_inj, Prod.mk.injEq] at h
    rw [← h.2]

/-- C10 witness: on the empty graph one requested iteration converges
immediately, so the trace has `1 + 1 = 2` entries. -/
theorem bp_trace_length_witness :
    (belief_propagation ({ } : FactorGraph) 1 (1/2) none).map
        (fun r => r.2.iterations.length) =
      some (completedSweeps (1/2) 1 { } (initV2F { }) + 1) ∧
    completedSweeps (1/2) 1 ({ } : FactorGraph) (initV2F { }) = 1 := by
  have heval : belief_propagation ({ } : FactorGraph) 1 (1/2) none =
      some ({ }, ⟨[⟨0, [], []⟩, ⟨1, [], []⟩]⟩) := by
    norm_num +decide [belief_propagation, bpLoop, bpSweep, updateAllFactors,
      updateVarMessages, updateAllBeliefs, initV2F, BPTrace.record,
      Dict.items, Dict.empty]
  have h := bp_trace_length { } 1 (1/2) _ _ heval
  refine ⟨?_, ?_⟩
  · rw [heval]
    exact congrArg some h.1
  · have h2 := h.1
    simp only [List.length_cons, List.length_nil] at h2
    omega

/-! ## Well-formedness implies the sweep never raises -/

theorem Dict.contains_insert_of {α β : Type} [DecidableEq α]
    (d : Dict α β) (k : α) (v : β) (k' : α) (h : d.contains k' = true) :
    (d.insert k v).contains k' = true := by
  rw [Dict.contains_eq_isSome] at h ⊢
  rw [Dict.lookup_insert]
  by_cases hk : k = k' <;> simp [hk, h]

theorem updateFactorTargets_wf (factor : FactorNode) (v2f : V2F)
    (damping : ℝ) :
    ∀ (targets : List String) (msgs : Dict String Msg) (mc : ℝ),
    (∀ t ∈ targets, msgs.contains t = true) →
    ∃ msgs' mc',
      updateFactorTargets factor v2f damping targets msgs mc =
        some (msgs', mc') ∧
      (∀ k, msgs.contains k = true → msgs'.contains k = true) := by
  intro targets
  induction targets with
  | nil =>
      intro msgs mc _
      exact ⟨msgs, mc, rfl, fun _ h => h⟩
  | cons t rest ih =>
      intro msgs mc hall
      obtain ⟨old, hold⟩ := (Dict.contains_iff_lookup msgs t).mp
        (hall t (List.mem_cons_self t rest))
      obtain ⟨dm, c, hshape⟩ :
          ∃ dm c, updateFactorTarget factor v2f damping msgs mc t =
            some (msgs.insert t dm, max mc c) := by
        simp only [updateFactorTarget, hold]
        exact ⟨_, _, rfl⟩
      obtain ⟨msgs', mc', hrest, hpres⟩ := ih (msgs.insert t dm) (max mc c)
        (fun t' ht' => Dict.contains_insert_of _ _ _ _ (hall t'
          (List.mem_cons_of_mem _ ht')))
      refine ⟨msgs', mc', ?_, fun k hk =>
        hpres k (Dict.contains_insert_of _ _ _ _ hk)⟩
      unfold updateFactorTargets
      rw [hshape]
      exact hrest

theorem updateAllFactors_wf (v2f : V2F) (damping : ℝ) :
    ∀ (factors : List FactorNode) (mc : ℝ),
    (∀ f ∈ factors, ∀ k ∈ f.var_keys, f.messages.contains k = true) →
    ∃ factors' mc',
      updateAllFactors v2f damping factors mc = some (factors', mc') ∧
      factors'.length = factors.length ∧
      (∀ (i : ℕ) (f f' : FactorNode), factors.get? i = some f →
        factors'.get? i = some f' →
        f'.factor_id = f.factor_id ∧ f'.var_keys = f.var_keys ∧
        f'.weight = f.weight ∧ f'.factor_type = f.factor_type ∧
        (∀ k, f.messages.contains k = true →
          f'.messages.contains k = true)) := by
  intro factors
  induction factors with
  | nil =>
      intro mc _
      exact ⟨[], mc, rfl, rfl, fun i f f' hf => by simp at hf⟩
  | cons f rest ih =>
      intro mc hall
      obtain ⟨msgs', mc', hhead, hpres⟩ := updateFactorTargets_wf f v2f
        damping f.var_keys f.messages mc
        (fun t ht => hall f (List.mem_cons_self f rest) t ht)
      obtain ⟨rest', mc'', hrest, hlen, hcorr⟩ := ih mc'
        (fun f₁ h₁ => hall f₁ (List.mem_cons_of_mem _ h₁))
      refine ⟨{ f with messages := msgs' } :: rest', mc'', ?_, by simp [hlen],
        ?_⟩
      · simp only [updateAllFactors, hhead, hrest]
      · intro i f₁ f₁' hf₁ hf₁'
        cases i with
        | zero =>
            simp only [List.get?] at hf₁ hf₁'
            injection hf₁ with hf₁
            injection hf₁' with hf₁'
            subst hf₁
            subst hf₁'
            exact ⟨rfl, rfl, rfl, rfl, hpres⟩
        | succ j =>
            simp only [List.get?] at hf₁ hf₁'
            exact hcorr j f₁ f₁' hf₁ hf₁'

theorem productOfOthers_some (g : FactorGraph) (var_key : String) (fi : ℕ) :
    ∀ (l : List ℕ) (acc : Msg),
    (∀ j ∈ l, ∃ f, g.factors.get? j = some f ∧
      f.messages.contains var_key = true) →
    ∃ m, productOfOthers g var_key fi l acc = some m := by
  intro l
  induction l with
  | nil => intro acc _; exact ⟨acc, rfl⟩
  | cons j rest ih =>
      intro acc hall
      obtain ⟨f, hf, hc⟩ := hall j (List.mem_cons_self j rest)
      obtain ⟨msg, hmsg⟩ := (Dict.contains_iff_lookup _ _).mp hc
      by_cases hj : j ≠ fi
      · obtain ⟨m, hm⟩ := ih (acc.1 * msg.1, acc.2 * msg.2)
          (fun j' hj' => hall j' (List.mem_cons_of_mem _ hj'))
        refine ⟨m, ?_⟩
        simp only [productOfOthers, if_pos hj, hf, hmsg]
        exact hm
      · obtain ⟨m, hm⟩ := ih acc
          (fun j' hj' => hall j' (List.mem_cons_of_mem _ hj'))
        refine ⟨m, ?_⟩
        simp only [productOfOthers, if_neg hj]
        exact hm

theorem updateVarKeyMsgs_some (g : FactorGraph) (var_key : String)
    (all_indices : List ℕ)
    (hall : ∀ j ∈ all_indices, ∃ f, g.factors.get? j = some f ∧
      f.messages.contains var_key = true) :
    ∀ (l : List ℕ) (v2f : V2F), (∀ j ∈ l, j ∈ all_indices) →
    ∃ v2f', updateVarKeyMsgs g var_key all_indices l v2f = some v2f' := by
  intro l
  induction l with
  | nil => intro v2f _; exact ⟨v2f, rfl⟩
  | cons fi rest ih =>
      intro v2f hsub
      obtain ⟨m, hm⟩ := productOfOthers_some g var_key fi all_indices
        (1.0, 1.0) hall
      obtain ⟨v2f', hv2f'⟩ := ih _ (fun j hj => hsub j
        (List.mem_cons_of_mem _ hj))
      refine ⟨v2f', ?_⟩
      unfold updateVarKeyMsgs
      rw [hm]
      exact hv2f'

theorem updateVarMessages_some (g : FactorGraph) :
    ∀ (items : List (String × List ℕ)) (v2f : V2F),
    (∀ kfis ∈ items, g.vars.contains kfis.1 = true ∧
      ∀ j ∈ kfis.2, ∃ f, g.factors.get? j = some f ∧
        f.messages.contains kfis.1 = true) →
    ∃ v2f', updateVarMessages g items v2f = some v2f' := by
  intro items
  induction items with
  | nil => intro v2f _; exact ⟨v2f, rfl⟩
  | cons p rest ih =>
      intro v2f hall
      obtain ⟨k₀, fis₀⟩ := p
      obtain ⟨hk₀, hfis₀⟩ := hall _ (List.mem_cons_self _ rest)
      obtain ⟨var, hvar⟩ := (Dict.contains_iff_lookup _ _).mp hk₀
      by_cases hev : var.is_evidence
      · obtain ⟨v2f', hv2f'⟩ := ih
          (fis₀.foldl (fun m fi => m.insert (k₀, fi) var.belief) v2f)
          (fun q hq => hall q (List.mem_cons_of_mem _ hq))
        refine ⟨v2f', ?_⟩
        unfold updateVarMessages
        rw [hvar]
        simp only [if_pos hev]
        exact hv2f'
      · obtain ⟨v2f₁, hv2f₁⟩ := updateVarKeyMsgs_some g k₀ fis₀ hfis₀ fis₀
          v2f (fun j hj => hj)
        obtain ⟨v2f', hv2f'⟩ := ih v2f₁
          (fun q hq => hall q (List.mem_cons_of_mem _ hq))
        refine ⟨v2f', ?_⟩
        unfold updateVarMessages
        rw [hvar]
        simp only [if_neg hev]
        rw [hv2f₁]
        exact hv2f'

theorem beliefProduct_some (g : FactorGraph) (var_key : String) :
    ∀ (l : List ℕ) (acc : Msg),
    (∀ j ∈ l, ∃ f, g.factors.get? j = some f ∧
      f.messages.contains var_key = true) →
    ∃ m, beliefProduct g var_key l acc = some m := by
  intro l
  induction l with
  | nil => intro acc _; exact ⟨acc, rfl⟩
  | cons j rest ih =>
      intro acc hall
      obtain ⟨f, hf, hc⟩ := hall j (List.mem_cons_self j rest)
      obtain ⟨msg, hmsg⟩ := (Dict.contains_iff_lookup _ _).mp hc
      obtain ⟨m, hm⟩ := ih (acc.1 * msg.1, acc.2 * msg.2)
        (fun j' hj' => hall j' (List.mem_cons_of_mem _ hj'))
      refine ⟨m, ?_⟩
      simp only [beliefProduct, hf, hmsg]
      exact hm

theorem updateAllBeliefs_some (g : FactorGraph) :
    ∀ (items : List (String × VariableNode)),
    (∀ kv ∈ items, ∃ fis, g.var_to_factors.lookup kv.1 = some fis ∧
      ∀ j ∈ fis, ∃ f, g.factors.get? j = some f ∧
        f.messages.contains kv.1 = true) →
    ∃ items', updateAllBeliefs g items = some items' := by
  intro items
  induction items with
  | nil => intro _; exact ⟨[], rfl⟩
  | cons p rest ih =>
      intro hall
      obtain ⟨k₀, v₀⟩ := p
      obtain ⟨fis, hfis, hprod⟩ := hall _ (List.mem_cons_self _ rest)
      obtain ⟨rest', hrest⟩ := ih (fun q hq => hall q
        (List.mem_cons_of_mem _ hq))
      by_cases hev : v₀.is_evidence
      · refine ⟨(k₀, v₀) :: rest', ?_⟩
        simp only [updateAllBeliefs,
          updateBeliefVar_evidence g k₀ v₀ hev, hrest]
      · obtain ⟨m, hm⟩ := beliefProduct_some g k₀ fis (1.0, 1.0) hprod
        refine ⟨(k₀, { v₀ with belief :=
            if m.1 + m.2 > 0 then (m.1 / (m.1 + m.2), m.2 / (m.1 + m.2))
            else v₀.belief }) :: rest', ?_⟩
        simp only [updateAllBeliefs, updateBeliefVar, if_neg hev, hfis, hm,
          hrest]

theorem Dict.contains_iff_mem_map_fst {α β : Type} [DecidableEq α]
    (d : Dict α β) (k : α) :
    d.contains k = true ↔ k ∈ d.map Prod.fst := by
  induction d with
  | nil => simp [Dict.contains]
  | cons p rest ih =>
      obtain ⟨k₀, v₀⟩ := p
      by_cases h : k₀ = k
      · subst h
        simp [Dict.contains]
      · simp only [Dict.contains, if_neg h, List.map_cons, List.mem_cons]
        rw [ih]
        constructor
        · exact Or.inr
        · rintro (h1 | h1)
          · exact absurd h1.symm h
          · exact h1

theorem Dict.contains_eq_of_map_fst {α β γ : Type} [DecidableEq α]
    (d₁ : Dict α β) (d₂ : Dict α γ)
    (h : d₁.map Prod.fst = d₂.map Prod.fst) (k : α) :
    d₁.contains k = d₂.contains k := by
  rw [Bool.eq_iff_iff, Dict.contains_iff_mem_map_fst,
    Dict.contains_iff_mem_map_fst, h]

theorem nodupKeys_eq_of_map_fst {α β γ : Type} [DecidableEq α] :
    ∀ (d₁ : Dict α β) (d₂ : Dict α γ),
    d₁.map Prod.fst = d₂.map Prod.fst → nodupKeys d₁ = nodupKeys d₂ := by
  intro d₁
  induction d₁ with
  | nil =>
      intro d₂ h
      cases d₂ with
      | nil => rfl
      | cons q rest => simp at h
  | cons p rest ih =>
      intro d₂ h
      cases d₂ with
      | nil => simp at h
      | cons q rest₂ =>
          obtain ⟨p₁, p₂⟩ := p
          obtain ⟨q₁, q₂⟩ := q
          simp only [List.map_cons, List.cons.injEq] at h
          unfold nodupKeys
          rw [h.1, Dict.contains_eq_of_map_fst rest rest₂ h.2, ih rest₂ h.2]

theorem updateAllBeliefs_map_fst (g : FactorGraph) :
    ∀ (items items' : List (String × VariableNode)),
    updateAllBeliefs g items = some items' →
    items'.map Prod.fst = items.map Prod.fst := by
  intro items
  induction items with
  | nil =>
      intro items' h
      simp only [updateAllBeliefs, Option.some_inj] at h
      rw [← h]
  | cons p rest ih =>
      intro items' h
      obtain ⟨k₀, v₀⟩ := p
      unfold updateAllBeliefs at h
      cases h₀ : updateBeliefVar g k₀ v₀ with
      | none => rw [h₀] at h; exact absurd h (by simp)
      | some w =>
          rw [h₀] at h
          cases h₁ : updateAllBeliefs g rest with
          | none => rw [h₁] at h; exact absurd h (by simp)
          | some rest' =>
              rw [h₁] at h
              simp only [Option.some_inj] at h
              rw [← h]
              simp [ih rest' h₁]

theorem updateAllBeliefs_mem (g : FactorGraph) :
    ∀ (items items' : List (String × VariableNode)),
    updateAllBeliefs g items = some items' →
    ∀ q' ∈ items', ∃ q ∈ items, q'.1 = q.1 ∧
      updateBeliefVar g q.1 q.2 = some q'.2 := by
  intro items
  induction items with
  | nil =>
      intro items' h q' hq'
      simp only [updateAllBeliefs, Option.some_inj] at h
      rw [← h] at hq'
      simp at hq'
  | cons p rest ih =>
      intro items' h q' hq'
      obtain ⟨k₀, v₀⟩ := p
      unfold updateAllBeliefs at h
      cases h₀ : updateBeliefVar g k₀ v₀ with
      | none => rw [h₀] at h; exact absurd h (by simp)
      | some w =>
          rw [h₀] at h
          cases h₁ : updateAllBeliefs g rest with
          | none => rw [h₁] at h; exact absurd h (by simp)
          | some rest' =>
              rw [h₁] at h
              simp only [Option.some_inj] at h
              rw [← h] at hq'
              rcases List.mem_cons.mp hq' with hq | hq
              · exact ⟨(k₀, v₀), List.mem_cons_self _ _, by rw [hq],
                  by rw [hq]; exact h₀⟩
              · obtain ⟨q, hqm, hq1, hq2⟩ := ih rest' h₁ q' hq
                exact ⟨q, List.mem_cons_of_mem _ hqm, hq1, hq2⟩

/-- Bool-level case split for the `wf` adjacency condition. -/
theorem option_case_bool {γ : Type} (o : Option γ) (p : γ → Bool) :
    ((o.map p).getD false) = true ↔ ∃ x, o = some x ∧ p x = true := by
  cases o <;> simp

/-- Unpacking the Bool-valued `wf` into its five component statements. -/
theorem wf_spec (g : FactorGraph) : g.wf = true ↔
    (nodupKeys g.vars = true ∧ nodupKeys g.var_to_factors = true ∧
     (∀ kfis ∈ g.var_to_factors.items, g.vars.contains kfis.1 = true ∧
       ∀ fi ∈ kfis.2, ∃ f, g.factors.get? fi = some f ∧
         f.messages.contains kfis.1 = true) ∧
     (∀ kv ∈ g.vars.items, g.var_to_factors.contains kv.1 = true) ∧
     (∀ f ∈ g.factors, ∀ k ∈ f.var_keys,
       f.messages.contains k = true)) := by
  unfold FactorGraph.wf
  simp only [Bool.and_eq_true, List.all_eq_true, option_case_bool]
  tauto

/-- A well-formed graph sweeps without raising, and stays well-formed. -/
theorem bpSweep_wf (g : FactorGraph) (v2f : V2F) (d : ℝ)
    (hwf : g.wf = true) :
    ∃ g' v2f' mc, bpSweep g v2f d = some (g', v2f', mc) ∧ g'.wf = true ∧
      g'.var_to_factors = g.var_to_factors := by
  obtain ⟨hnd1, hnd2, hadj, hcov, hfm⟩ := (wf_spec g).mp hwf
  obtain ⟨factors', mc, hf1, hlen, hcorr⟩ :=
    updateAllFactors_wf v2f d g.factors 0.0 hfm
  have hlift : ∀ (k : String) (j : ℕ), (∃ f, g.factors.get? j = some f ∧
      f.messages.contains k = true) →
      ∃ f', factors'.get? j = some f' ∧ f'.messages.contains k = true := by
    intro k j ⟨f, hf, hc⟩
    cases hf' : factors'.get? j with
    | none =>
        rw [List.get?_eq_none] at hf'
        rw [hlen] at hf'
        have : g.factors.get? j = none := List.get?_eq_none.mpr hf'
        rw [this] at hf
        cases hf
    | some f' =>
        obtain ⟨_, _, _, _, hpres⟩ := hcorr j f f' hf hf'
        exact ⟨f', rfl, hpres k hc⟩
  set g1 : FactorGraph := { g with factors := factors' } with hg1
  obtain ⟨v2f', hv2f'⟩ := updateVarMessages_some g1
    g.var_to_factors.items v2f (by
      intro kfis hk
      obtain ⟨hc1, hc2⟩ := hadj kfis hk
      exact ⟨hc1, fun j hj => hlift kfis.1 j (hc2 j hj)⟩)
  obtain ⟨items', hitems'⟩ := updateAllBeliefs_some g1 g.vars.items (by
      intro kv hkv
      obtain ⟨fis, hfis⟩ := (Dict.contains_iff_lookup _ _).mp (hcov kv hkv)
      obtain ⟨_, hc2⟩ := hadj (kv.1, fis) (Dict.lookup_mem _ _ _ hfis)
      exact ⟨fis, hfis, fun j hj => hlift kv.1 j (hc2 j hj)⟩)
  refine ⟨⟨items', factors', g.var_to_factors⟩, v2f', mc, ?_, ?_, rfl⟩
  · simp only [bpSweep, hf1, hv2f', hitems']
  · have hmf := updateAllBeliefs_map_fst g1 g.vars.items items' hitems'
    rw [wf_spec]
    refine ⟨?_, hnd2, ?_, ?_, ?_⟩
    · rw [nodupKeys_eq_of_map_fst items' g.vars hmf]
      exact hnd1
    · intro kfis hk
      obtain ⟨hc1, hc2⟩ := hadj kfis hk
      refine ⟨?_, fun fi hfi => hlift kfis.1 fi (hc2 fi hfi)⟩
      show Dict.contains items' kfis.1 = true
      rw [Dict.contains_eq_of_map_fst items' g.vars hmf]
      exact hc1
    · intro kv hkv
      obtain ⟨q, hqm, hq1, _⟩ := updateAllBeliefs_mem g1 g.vars.items
        items' hitems' kv hkv
      rw [hq1]
      exact hcov q hqm
    · intro f' hf'
      obtain ⟨j, hj⟩ := List.get?_of_mem hf'
      cases hfj : g.factors.get? j with
      | none =>
          rw [List.get?_eq_none] at hfj
          rw [← hlen] at hfj
          have : factors'.get? j = none := List.get?_eq_none.mpr hfj
          rw [this] at hj
          cases hj
      | some f =>
          obtain ⟨_, hkeys, _, _, hpres⟩ := hcorr j f f' hfj hj
          intro k hk
          rw [hkeys] at hk
          exact hpres k (hfm f (List.get?_mem hfj) k hk)

/-- A well-formed graph runs the whole loop without raising. -/
theorem bpLoop_some (d : ℝ) :
    ∀ (fuel it : ℕ) (g : FactorGraph) (v2f : V2F) (tr : BPTrace),
    g.wf = true → ∃ r, bpLoop d fuel it g v2f tr = some r := by
  intro fuel
  induction fuel with
  | zero => intro it g v2f tr _; exact ⟨(g, tr), rfl⟩
  | succ n ih =>
      intro it g v2f tr hwf
      obtain ⟨g', v2f', mc, hs, hwf', _⟩ := bpSweep_wf g v2f d hwf
      by_cases hmc : mc < 1e-6
      · refine ⟨(g', tr.record it g' v2f'), ?_⟩
        unfold bpLoop
        rw [hs]
        simp only [if_pos hmc]
      · obtain ⟨r, hr⟩ := ih (it + 1) g' v2f' (tr.record it g' v2f') hwf'
        refine ⟨r, ?_⟩
        unfold bpLoop
        rw [hs]
        simp only [if_neg hmc]
        exact hr

theorem completedSweeps_le (d : ℝ) :
    ∀ (fuel : ℕ) (g : FactorGraph) (v2f : V2F),
    completedSweeps d fuel g v2f ≤ fuel := by
  intro fuel
  induction fuel with
  | zero => intro g v2f; exact le_refl 0
  | succ n ih =>
      intro g v2f
      cases hs : bpSweep g v2f d with
      | none =>
          have : completedSweeps d (n + 1) g v2f = 0 := by
            have hdef : completedSweeps d (n + 1) g v2f =
                match bpSweep g v2f d with
                | none => 0
                | some (g', v2f', max_change) =>
                    if max_change < 1e-6 then 1
                    else completedSweeps d n g' v2f' + 1 := rfl
            rw [hdef, hs]
          omega
      | some r =>
          obtain ⟨g₁, v2f₁, mc⟩ := r
          rw [completedSweeps_succ d n g v2f g₁ v2f₁ mc hs]
          by_cases hmc : mc < 1e-6
          · rw [if_pos hmc]; omega
          · rw [if_neg hmc]
            have := ih g₁ v2f₁
            omega

theorem nthSweepChange_succ (d : ℝ) (g : FactorGraph) (v2f : V2F) (n : ℕ)
    (g₁ : FactorGraph) (v2f₁ : V2F) (mc : ℝ)
    (hs : bpSweep g v2f d = some (g₁, v2f₁, mc)) :
    nthSweepChange d g v2f (n + 1) = nthSweepChange d g₁ v2f₁ n := by
  unfold nthSweepChange
  have hdef : iterSweep d (n + 1) g v2f =
      match bpSweep g v2f d with
      | none => none
      | some r => iterSweep d n r.1 r.2.1 := rfl
  rw [hdef, hs]

theorem nthSweepChange_zero (d : ℝ) (g : FactorGraph) (v2f : V2F)
    (g₁ : FactorGraph) (v2f₁ : V2F) (mc : ℝ)
    (hs : bpSweep g v2f d = some (g₁, v2f₁, mc)) :
    nthSweepChange d g v2f 0 = some mc := by
  unfold nthSweepChange
  show (bpSweep g v2f d).map _ = _
  rw [hs]
  rfl

/-- With a successful first sweep, at least one sweep completes. -/
theorem completedSweeps_pos (d : ℝ) (n : ℕ) (g : FactorGraph) (v2f : V2F)
    (g₁ : FactorGraph) (v2f₁ : V2F) (mc : ℝ)
    (hs : bpSweep g v2f d = some (g₁, v2f₁, mc)) :
    1 ≤ completedSweeps d (n + 1) g v2f := by
  rw [completedSweeps_succ d n g v2f g₁ v2f₁ mc hs]
  by_cases hmc : mc < 1e-6
  · rw [if_pos hmc]
  · rw [if_neg hmc]; omega

/-- The stopping behavior of the loop: every sweep before the stopping one
changed by at least `1e-6`, an early stop means the last sweep changed by
less, and if no sweep before the budget's end is small the budget is used
in full. -/
theorem completedSweeps_spec (d : ℝ) :
    ∀ (fuel : ℕ) (g : FactorGraph) (v2f : V2F), g.wf = true →
    (∀ n, n + 1 < completedSweeps d fuel g v2f →
      ∃ c, nthSweepChange d g v2f n = some c ∧ 1e-6 ≤ c) ∧
    (completedSweeps d fuel g v2f < fuel →
      ∃ c, nthSweepChange d g v2f (completedSweeps d fuel g v2f - 1) =
        some c ∧ c < 1e-6) ∧
    ((∀ n c, n + 1 < fuel → nthSweepChange d g v2f n = some c →
      1e-6 ≤ c) → completedSweeps d fuel g v2f = fuel) := by
  intro fuel
  induction fuel with
  | zero =>
      intro g v2f _
      refine ⟨?_, ?_, ?_⟩
      · intro n hn
        have := completedSweeps_le d 0 g v2f
        omega
      · intro hlt
        have := completedSweeps_le d 0 g v2f
        omega
      · intro _
        have := completedSweeps_le d 0 g v2f
        omega
  | succ m ih =>
      intro g v2f hwf
      obtain ⟨g₁, v2f₁, mc, hs, hwf₁, _⟩ := bpSweep_wf g v2f d hwf
      rw [completedSweeps_succ d m g v2f g₁ v2f₁ mc hs]
      obtain ⟨iha, ihb, ihc⟩ := ih g₁ v2f₁ hwf₁
      by_cases hmc : mc < 1e-6
      · rw [if_pos hmc]
        refine ⟨?_, ?_, ?_⟩
        · intro n hn; omega
        · intro hlt
          exact ⟨mc, nthSweepChange_zero d g v2f g₁ v2f₁ mc hs, hmc⟩
        · intro hall
          cases m with
          | zero => rfl
          | succ m' =>
              exfalso
              have := hall 0 mc (by omega)
                (nthSweepChange_zero d g v2f g₁ v2f₁ mc hs)
              exact absurd hmc (not_lt.mpr this)
      · rw [if_neg hmc]
        refine ⟨?_, ?_, ?_⟩
        · intro n hn
          cases n with
          | zero =>
              exact ⟨mc, nthSweepChange_zero d g v2f g₁ v2f₁ mc hs,
                not_lt.mp hmc⟩
          | succ k =>
              rw [nthSweepChange_succ d g v2f k g₁ v2f₁ mc hs]
              exact iha k (by omega)
        · intro hlt
          have hm1 : completedSweeps d m g₁ v2f₁ < m := by omega
          obtain ⟨c, hc, hcl⟩ := ihb hm1
          have hpos : 1 ≤ completedSweeps d m g₁ v2f₁ := by
            cases hm : m with
            | zero => omega
            | succ m'' =>
                obtain ⟨g₂, v2f₂, mc₂, hs₂, _, _⟩ :=
                  bpSweep_wf g₁ v2f₁ d hwf₁
                exact completedSweeps_pos d m'' g₁ v2f₁ g₂ v2f₂ mc₂ hs₂
          refine ⟨c, ?_, hcl⟩
          have harith : completedSweeps d m g₁ v2f₁ + 1 - 1 =
              (completedSweeps d m g₁ v2f₁ - 1) + 1 := by omega
          rw [harith, nthSweepChange_succ d g v2f _ g₁ v2f₁ mc hs]
          exact hc
        · intro hall
          have : completedSweeps d m g₁ v2f₁ = m := by
            apply ihc
            intro n c hn hc
            exact hall (n + 1) c (by omega)
              (by rw [nthSweepChange_succ d g v2f n g₁ v2f₁ mc hs]; exact hc)
          omega

/-- C8: on a well-formed graph (the data-model invariants every
API-constructed graph satisfies) with nonnegative weights,
`belief_propagation` raises no exception for any damping and budget; the
loop completes at most `iterations` sweeps, stops early exactly on the
first sweep whose maximum L1 message change drops below `1e-6`, and
otherwise performs exactly `iterations` sweeps. -/
theorem bp_total_and_stopping (g : FactorGraph) (it : ℕ) (d : ℝ)
    (hwf : g.wf = true) (hw : ∀ f ∈ g.factors, 0 ≤ f.weight) :
    ((belief_propagation g it d none).isSome = true) ∧
    completedSweeps d it g (initV2F g) ≤ it ∧
    (∀ n, n + 1 < completedSweeps d it g (initV2F g) →
      ∃ c, nthSweepChange d g (initV2F g) n = some c ∧ 1e-6 ≤ c) ∧
    (completedSweeps d it g (initV2F g) < it →
      ∃ c, nthSweepChange d g (initV2F g)
        (completedSweeps d it g (initV2F g) - 1) = some c ∧ c < 1e-6) ∧
    ((∀ n c, n + 1 < it → nthSweepChange d g (initV2F g) n = some c →
      1e-6 ≤ c) → completedSweeps d it g (initV2F g) = it) := by
  clear hw
  obtain ⟨ha, hb, hc⟩ := completedSweeps_spec d it g (initV2F g) hwf
  refine ⟨?_, completedSweeps_le d it g (initV2F g), ha, hb, hc⟩
  obtain ⟨r, hr⟩ := bpLoop_some d it 1 g (initV2F g) _ hwf
  unfold belief_propagation
  rw [hr]
  rfl

/-- C8 witness: the empty graph is well-formed, runs one requested
iteration without raising, and completes at most that one sweep. -/
theorem bp_total_and_stopping_witness :
    (belief_propagation ({ } : FactorGraph) 1 (1/2) none).isSome = true ∧
      completedSweeps (1/2) 1 ({ } : FactorGraph)
        (initV2F ({ } : FactorGraph)) ≤ 1 := by
  have h := bp_total_and_stopping { } 1 (1/2) (by decide)
    (by intro f hf; simp at hf)
  exact ⟨h.1, h.2.1⟩

/-! ## Restarting belief propagation (claim C5) -/

/-- C5 counterexample: on the `p → q` graph with weight `log 2` and
damping `0`, running one iteration and then one more on the resulting
graph gives `P(q) = 4/7`, while a single two-iteration run gives
`P(q) = 2/3`; the difference `2/21` is far beyond the `1e-6` tolerance.
The second call re-initializes the variable→factor messages to `[1,1]`,
which is why the runs differ. -/
theorem bp_restart_differs_from_single_run :
    ((belief_propagation gC5 1 0 none).bind fun r1 =>
      (belief_propagation r1.1 1 0 none).map fun r2 => query r2.1 "q") =
      some ((4 : ℝ)/7) ∧
    (belief_propagation gC5 2 0 none).map (fun r => query r.1 "q") =
      some ((2 : ℝ)/3) ∧
    ¬(|(4 : ℝ)/7 - 2/3| < 1e-6) := by
  have hexp : Real.exp (-Real.log 2) = 2⁻¹ := by
    rw [Real.exp_neg, Real.exp_log two_pos]
  refine ⟨?_, ?_, ?_⟩
  · norm_num +decide [gC5, belief_propagation, bpLoop, bpSweep,
      updateAllFactors, updateFactorTargets, updateFactorTarget,
      sumOverOthers, buildAssignment, compute_factor_potential,
      updateVarMessages, updateVarKeyMsgs, productOfOthers,
      updateAllBeliefs, updateBeliefVar, beliefProduct, initV2F,
      FactorGraph.add_implication_factor, FactorGraph.add_variable,
      FactorGraph.set_evidence, VariableNode.set_evidence,
      FactorNode.init_messages, Dict.lookup, Dict.insert, Dict.getD,
      Dict.items, Dict.contains, Dict.empty, BPTrace.record,
      VariableNode.prob_true, query, List.range, List.range.loop, hexp]
  · norm_num +decide [gC5, belief_propagation, bpLoop, bpSweep,
      updateAllFactors, updateFactorTargets, updateFactorTarget,
      sumOverOthers, buildAssignment, compute_factor_potential,
      updateVarMessages, updateVarKeyMsgs, productOfOthers,
      updateAllBeliefs, updateBeliefVar, beliefProduct, initV2F,
      FactorGraph.add_implication_factor, FactorGraph.add_variable,
      FactorGraph.set_evidence, VariableNode.set_evidence,
      FactorNode.init_messages, Dict.lookup, Dict.insert, Dict.getD,
      Dict.items, Dict.contains, Dict.empty, BPTrace.record,
      VariableNode.prob_true, query, List.range, List.range.loop, hexp,
      abs_of_nonneg, abs_of_nonpos]
  · rw [show |(4 : ℝ)/7 - 2/3| = 2/21 from by
      rw [abs_of_nonpos (by norm_num)]; norm_num]
    norm_num

theorem updateVarMessages_nilfis (g : FactorGraph) :
    ∀ (items : List (String × List ℕ)) (v2f : V2F),
    (∀ p ∈ items, p.2 = ([] : List ℕ)) →
    (∀ p ∈ items, g.vars.contains p.1 = true) →
    updateVarMessages g items v2f = some v2f := by
  intro items
  induction items with
  | nil => intro v2f _ _; rfl
  | cons p rest ih =>
      intro v2f hnil hcont
      obtain ⟨k₀, fis₀⟩ := p
      have h0 : fis₀ = [] := hnil _ (List.mem_cons_self _ _)
      subst h0
      obtain ⟨var, hvar⟩ := (Dict.contains_iff_lookup _ _).mp
        (hcont _ (List.mem_cons_self _ _))
      have hrest := ih v2f (fun q hq => hnil q (List.mem_cons_of_mem _ hq))
        (fun q hq => hcont q (List.mem_cons_of_mem _ hq))
      by_cases hev : var.is_evidence
      · simp only [updateVarMessages, hvar, if_pos hev, List.foldl_nil]
        exact hrest
      · simp only [updateVarMessages, hvar, if_neg hev, updateVarKeyMsgs]
        exact hrest

theorem updateAllBeliefs_id (g : FactorGraph) :
    ∀ (items : List (String × VariableNode)),
    (∀ kv ∈ items, updateBeliefVar g kv.1 kv.2 = some kv.2) →
    updateAllBeliefs g items = some items := by
  intro items
  induction items with
  | nil => intro _; rfl
  | cons p rest ih =>
      intro hfix
      simp only [updateAllBeliefs, hfix p (List.mem_cons_self _ _),
        ih (fun q hq => hfix q (List.mem_cons_of_mem _ hq))]

/-- On a factor-free graph with uniform non-evidence priors every
`belief_propagation` call returns the graph unchanged. -/
theorem bp_factorless_fixed (g : FactorGraph) (hwf : g.wf = true)
    (hnof : g.factors = [])
    (hunif : ∀ kv ∈ g.vars.items, kv.2.is_evidence = false →
      kv.2.belief = (0.5, 0.5)) (k : ℕ) (d : ℝ) :
    ∃ tr, belief_propagation g k d none = some (g, tr) := by
  obtain ⟨_, _, hadj, hcov, _⟩ := (wf_spec g).mp hwf
  have hnilfis : ∀ kfis ∈ g.var_to_factors.items, kfis.2 = ([] : List ℕ) := by
    intro kfis hk
    obtain ⟨_, h2⟩ := hadj kfis hk
    refine List.eq_nil_iff_forall_not_mem.mpr fun fi hfi => ?_
    obtain ⟨f, hf, _⟩ := h2 fi hfi
    rw [hnof] at hf
    simp at hf
  have hfix : ∀ kv ∈ g.vars.items, updateBeliefVar g kv.1 kv.2 = some kv.2 := by
    intro kv hkv
    by_cases hev : kv.2.is_evidence
    · exact updateBeliefVar_evidence g kv.1 kv.2 hev
    · obtain ⟨fis, hfis⟩ := (Dict.contains_iff_lookup _ _).mp (hcov kv hkv)
      have h0 : fis = [] :=
        hnilfis (kv.1, fis) (Dict.lookup_mem _ _ _ hfis)
      subst h0
      have hb : kv.2.belief = (0.5, 0.5) :=
        hunif kv hkv (by simpa using hev)
      obtain ⟨k₁, v₁⟩ := kv
      simp only [updateBeliefVar, if_neg hev, hfis, beliefProduct]
      have hsum : ((1.0 : ℝ), (1.0 : ℝ)).1 + ((1.0 : ℝ), (1.0 : ℝ)).2 > 0 := by
        norm_num
      rw [if_pos hsum]
      obtain ⟨key, bel, ev⟩ := v₁
      simp only at hb
      subst hb
      simp only [Option.some_inj, VariableNode.mk.injEq, true_and, and_true]
      norm_num
  have hsweep : ∀ v2f : V2F, bpSweep g v2f d = some (g, v2f, 0.0) := by
    intro v2f
    have hAF : updateAllFactors v2f d g.factors 0.0 = some ([], 0.0) := by
      rw [hnof]; rfl
    have hg1 : ({ g with factors := [] } : FactorGraph) = g := by
      conv_lhs => rw [← hnof]
    have hUVM : updateVarMessages g g.var_to_factors.items v2f = some v2f :=
      updateVarMessages_nilfis g g.var_to_factors.items v2f hnilfis
        (fun p hp => (hadj p hp).1)
    have hUAB : updateAllBeliefs g g.vars.items = some g.vars.items :=
      updateAllBeliefs_id g g.vars.items hfix
    simp only [bpSweep, hAF, hg1, hUVM, hUAB]
    rw [← hnof]
    rfl
  cases k with
  | zero => exact ⟨_, rfl⟩
  | succ n =>
      refine ⟨((({ } : BPTrace).record 0 g (initV2F g)).record 1 g
        (initV2F g)), ?_⟩
      show bpLoop d (n + 1) 1 g (initV2F g) _ = _
      unfold bpLoop
      rw [hsweep (initV2F g)]
      simp only [if_pos (by norm_num : (0.0 : ℝ) < 1e-6)]
      rfl

/-- C5 amended: re-running `belief_propagation` re-initializes the
variable→factor message store, so N-then-M only provably coincides with a
single (N+M)-iteration run on graphs where the sweep is a no-op — here:
factor-free graphs with uniform priors, where every run returns the graph
unchanged.  On graphs with factors the equality fails
(counterexample above). -/
theorem bp_restart_fixed_point (g : FactorGraph) (hwf : g.wf = true)
    (hnof : g.factors = [])
    (hunif : ∀ kv ∈ g.vars.items, kv.2.is_evidence = false →
      kv.2.belief = (0.5, 0.5)) :
    ∀ (N M : ℕ) (d : ℝ),
      ((belief_propagation g N d none).bind fun r1 =>
        (belief_propagation r1.1 M d none).map fun r2 => r2.1) = some g ∧
      (belief_propagation g (N + M) d none).map (fun r => r.1) = some g := by
  intro N M d
  obtain ⟨tr1, h1⟩ := bp_factorless_fixed g hwf hnof hunif N d
  obtain ⟨tr2, h2⟩ := bp_factorless_fixed g hwf hnof hunif M d
  obtain ⟨tr3, h3⟩ := bp_factorless_fixed g hwf hnof hunif (N + M) d
  rw [h1, h3]
  simp [h2]

/-- C5 amended witness: the one-evidence-variable factor-free graph is a
fixed point of 1-then-1 and of a single 2-iteration run. -/
theorem bp_restart_fixed_point_witness :
    ((belief_propagation gC3 1 0 none).bind fun r1 =>
      (belief_propagation r1.1 1 0 none).map fun r2 => r2.1) = some gC3 ∧
    (belief_propagation gC3 (1 + 1) 0 none).map (fun r => r.1) =
      some gC3 := by
  exact bp_restart_fixed_point gC3 (by decide) rfl
    (by
      intro kv hkv hev
      rcases List.mem_singleton.mp hkv with rfl
      simp [VariableNode.set_evidence] at hev) 1 1 0

end PyBayes

namespace PyBayes

theorem sumOverOthers_eq (factor : FactorNode) (v2f : V2F) (tv : String)
    (tval : ℕ) (ovs : List String) :
    sumOverOthers factor v2f tv tval ovs =
      (List.range (2 ^ ovs.length)).foldl
        (fun total bits => total + sooTerm factor v2f tv tval ovs bits)
        0.0 := rfl

theorem Dict.contains_insert {α β : Type} [DecidableEq α]
    (d : Dict α β) (k : α) (v : β) (k' : α) :
    (d.insert k v).contains k' = true ↔ k = k' ∨ d.contains k' = true := by
  rw [Dict.contains_eq_isSome, Dict.contains_eq_isSome, Dict.lookup_insert]
  by_cases h : k = k' <;> simp [h]

theorem nodupKeys_insert {α β : Type} [DecidableEq α]
    (d : Dict α β) (k : α) (v : β) (hnd : nodupKeys d = true) :
    nodupKeys (d.insert k v) = true := by
  induction d with
  | nil => simp [Dict.insert, nodupKeys, Dict.contains]
  | cons p rest ih =>
      obtain ⟨k₀, v₀⟩ := p
      simp only [nodupKeys, Bool.and_eq_true, Bool.not_eq_true'] at hnd
      by_cases hk : k₀ = k
      · subst hk
        simp only [Dict.insert, if_pos rfl, nodupKeys, Bool.and_eq_true,
          Bool.not_eq_true']
        exact hnd
      · simp only [Dict.insert, if_neg hk, nodupKeys, Bool.and_eq_true,
          Bool.not_eq_true']
        refine ⟨?_, ih hnd.2⟩
        cases hc : Dict.contains (Dict.insert rest k v) k₀ with
        | false => rfl
        | true =>
            rcases (Dict.contains_insert rest k v k₀).mp hc with h | h
            · exact absurd h.symm hk
            · rw [hnd.1] at h
              exact absurd h Bool.false_ne_true

theorem Dict.mem_insert_nodup {α β : Type} [DecidableEq α]
    (d : Dict α β) (k : α) (v : β) (p : α × β)
    (hnd : nodupKeys d = true) (h : p ∈ d.insert k v) :
    p = (k, v) ∨ (p ∈ d ∧ p.1 ≠ k) := by
  induction d with
  | nil =>
      simp only [Dict.insert, List.mem_singleton] at h
      exact Or.inl h
  | cons q rest ih =>
      obtain ⟨k₀, v₀⟩ := q
      simp only [nodupKeys, Bool.and_eq_true, Bool.not_eq_true'] at hnd
      by_cases hk : k₀ = k
      · subst hk
        simp only [Dict.insert, if_pos rfl] at h
        rcases List.mem_cons.mp h with h | h
        · exact Or.inl h
        · refine Or.inr ⟨List.mem_cons_of_mem _ h, fun he => ?_⟩
          have := Dict.contains_of_mem rest p h
          rw [he, hnd.1] at this
          exact Bool.false_ne_true this
      · simp only [Dict.insert, if_neg hk] at h
        rcases List.mem_cons.mp h with h | h
        · refine Or.inr ⟨by rw [h]; exact List.mem_cons_self _ _, ?_⟩
          rw [h]
          exact hk
        · rcases ih hnd.2 h with h | ⟨hm, hne⟩
          · exact Or.inl h
          · exact Or.inr ⟨List.mem_cons_of_mem _ hm, hne⟩

theorem Dict.lookup_of_mem_nodup {α β : Type} [DecidableEq α]
    (d : Dict α β) (hnd : nodupKeys d = true) (k : α) (v : β)
    (h : (k, v) ∈ d) : d.lookup k = some v := by
  induction d with
  | nil => simp at h
  | cons p rest ih =>
      obtain ⟨k₀, v₀⟩ := p
      simp only [nodupKeys, Bool.and_eq_true, Bool.not_eq_true'] at hnd
      rcases List.mem_cons.mp h with he | hm
      · injection he with h1 h2
        subst h1
        subst h2
        simp [Dict.lookup]
      · by_cases hk : k₀ = k
        · subst hk
          have := Dict.contains_of_mem rest (k₀, v) hm
          rw [hnd.1] at this
          exact absurd this Bool.false_ne_true
        · simp only [Dict.lookup, if_neg hk]
          exact ih hnd.2 hm

theorem foldl_add_le {γ : Type} (f : γ → ℝ) :
    ∀ (l : List γ) (init : ℝ), (∀ b ∈ l, 0 ≤ f b) →
    init ≤ l.foldl (fun t b => t + f b) init := by
  intro l
  induction l with
  | nil => intro init _; exact le_refl _
  | cons a rest ih =>
      intro init h
      simp only [List.foldl_cons]
      have ha := h a (List.mem_cons_self _ _)
      calc init ≤ init + f a := by linarith
        _ ≤ _ := ih _ (fun b hb => h b (List.mem_cons_of_mem _ hb))

theorem foldl_add_pos {γ : Type} (f : γ → ℝ) :
    ∀ (l : List γ) (init : ℝ) (b : γ), b ∈ l → 0 < f b →
    (∀ c ∈ l, 0 ≤ f c) → 0 ≤ init →
    0 < l.foldl (fun t c => t + f c) init := by
  intro l
  induction l with
  | nil => intro init b hb; simp at hb
  | cons a rest ih =>
      intro init b hb hfb hall hinit
      simp only [List.foldl_cons]
      rcases List.mem_cons.mp hb with rfl | hb'
      · have h1 : 0 < init + f b := by linarith
        calc (0 : ℝ) < init + f b := h1
          _ ≤ _ := foldl_add_le f rest _
              (fun c hc => hall c (List.mem_cons_of_mem _ hc))
      · have h0 : 0 ≤ init + f a := by
          have := hall a (List.mem_cons_self _ _)
          linarith
        exact ih _ b hb' hfb
          (fun c hc => hall c (List.mem_cons_of_mem _ hc)) h0

theorem foldl_mul_nonneg {γ : Type} (f : γ → ℝ) :
    ∀ (l : List γ) (init : ℝ), 0 ≤ init → (∀ b ∈ l, 0 ≤ f b) →
    0 ≤ l.foldl (fun p b => p * f b) init := by
  intro l
  induction l with
  | nil => intro init h _; exact h
  | cons a rest ih =>
      intro init h hall
      simp only [List.foldl_cons]
      exact ih _ (mul_nonneg h (hall a (List.mem_cons_self _ _)))
        (fun b hb => hall b (List.mem_cons_of_mem _ hb))

theorem foldl_mul_pos {γ : Type} (f : γ → ℝ) :
    ∀ (l : List γ) (init : ℝ), 0 < init → (∀ b ∈ l, 0 < f b) →
    0 < l.foldl (fun p b => p * f b) init := by
  intro l
  induction l with
  | nil => intro init h _; exact h
  | cons a rest ih =>
      intro init h hall
      simp only [List.foldl_cons]
      exact ih _ (mul_pos h (hall a (List.mem_cons_self _ _)))
        (fun b hb => hall b (List.mem_cons_of_mem _ hb))

theorem compute_factor_potential_pos (f : FactorNode) (a : String → ℕ) :
    0 < compute_factor_potential f a := by
  simp only [compute_factor_potential]
  split_ifs <;> first | exact Real.exp_pos _ | norm_num

theorem ofBits_lt : ∀ (l : List ℕ), (∀ b ∈ l, b < 2) →
    ofBits l < 2 ^ l.length := by
  intro l
  induction l with
  | nil => intro _; simp [ofBits]
  | cons b bs ih =>
      intro h
      have hb := h b (List.mem_cons_self _ _)
      have hbs := ih (fun c hc => h c (List.mem_cons_of_mem _ hc))
      simp only [ofBits, List.length_cons]
      have h1 : b + 2 * ofBits bs < 2 * (ofBits bs + 1) := by omega
      have h2 : ofBits bs + 1 ≤ 2 ^ bs.length := hbs
      calc b + 2 * ofBits bs < 2 * (ofBits bs + 1) := h1
        _ ≤ 2 * 2 ^ bs.length := Nat.mul_le_mul_left 2 h2
        _ = 2 ^ (bs.length + 1) := by rw [pow_succ]; ring

theorem ofBits_digit : ∀ (l : List ℕ), (∀ b ∈ l, b < 2) →
    ∀ (i x : ℕ), l.get? i = some x → ofBits l / 2 ^ i % 2 = x := by
  intro l
  induction l with
  | nil => intro _ i x h; simp at h
  | cons b bs ih =>
      intro h i x hx
      have hb := h b (List.mem_cons_self _ _)
      cases i with
      | zero =>
          simp only [List.get?] at hx
          injection hx with hx
          subst hx
          simp only [ofBits, pow_zero, Nat.div_one]
          omega
      | succ j =>
          simp only [List.get?] at hx
          have hrec := ih (fun c hc => h c (List.mem_cons_of_mem _ hc)) j x hx
          simp only [ofBits]
          have hdiv : (b + 2 * ofBits bs) / 2 ^ (j + 1) = ofBits bs / 2 ^ j := by
            rw [pow_succ']
            rw [← Nat.div_div_eq_div_mul]
            congr 1
            omega
          rw [hdiv]
          exact hrec

theorem pickPos_lt_two (m : Msg) : pickPos m < 2 := by
  unfold pickPos
  split_ifs <;> norm_num

theorem pickPos_sel_pos (m : Msg) (h : MsgOK m) :
    0 < (if pickPos m = 0 then m.1 else m.2) := by
  obtain ⟨h1, h2, h3⟩ := h
  by_cases hm : 0 < m.1
  · simp [pickPos, hm]
  · have h1' : m.1 = 0 := le_antisymm (not_lt.mp hm) h1
    simp only [pickPos, if_neg hm]
    norm_num
    linarith

theorem foldl_enum_insert_frame (bits : ℕ) (key : String) :
    ∀ (l : List String) (n : ℕ) (acc : Dict String ℕ), key ∉ l →
    ((l.enumFrom n).foldl
      (fun a iov => a.insert iov.2 (bits / 2 ^ iov.1 % 2)) acc).lookup key
      = acc.lookup key := by
  intro l
  induction l with
  | nil => intro n acc _; rfl
  | cons a rest ih =>
      intro n acc hk
      have hka : key ≠ a := fun h => hk (h ▸ List.mem_cons_self _ _)
      have hkr : key ∉ rest := fun h => hk (List.mem_cons_of_mem _ h)
      simp only [List.enumFrom, List.foldl_cons]
      rw [ih (n + 1) _ hkr]
      exact Dict.lookup_insert_ne _ _ _ _ (Ne.symm hka)

theorem foldl_enum_insert_getD (bits : ℕ) (ov : String) :
    ∀ (l : List String) (n : ℕ) (acc : Dict String ℕ), ov ∈ l →
    ∃ j, l.get? j = some ov ∧
    ((l.enumFrom n).foldl
      (fun a iov => a.insert iov.2 (bits / 2 ^ iov.1 % 2)) acc).lookup ov
      = some (bits / 2 ^ (n + j) % 2) := by
  intro l
  induction l with
  | nil => intro n acc h; simp at h
  | cons a rest ih =>
      intro n acc hov
      by_cases hr : ov ∈ rest
      · obtain ⟨j, hj, hl⟩ := ih (n + 1)
          (acc.insert a (bits / 2 ^ n % 2)) hr
        refine ⟨j + 1, by simpa using hj, ?_⟩
        simp only [List.enumFrom, List.foldl_cons]
        rw [hl]
        have : n + 1 + j = n + (j + 1) := by omega
        rw [this]
      · have ha : ov = a := by
          rcases List.mem_cons.mp hov with h | h
          · exact h
          · exact absurd h hr
        subst ha
        refine ⟨0, by simp, ?_⟩
        simp only [List.enumFrom, List.foldl_cons]
        rw [foldl_enum_insert_frame bits ov rest (n + 1) _ hr]
        rw [Dict.lookup_insert_self]
        rw [Nat.add_zero]

theorem buildAssignment_getD (tv : String) (tval bits : ℕ)
    (ovs : List String) (ov : String) (hov : ov ∈ ovs) :
    ∃ j, ovs.get? j = some ov ∧
      (buildAssignment tv tval ovs bits).getD ov 0 = bits / 2 ^ j % 2 := by
  obtain ⟨j, hj, hl⟩ := foldl_enum_insert_getD bits ov ovs 0
    (Dict.empty.insert tv tval) hov
  refine ⟨j, hj, ?_⟩
  unfold buildAssignment Dict.getD
  rw [show ovs.enum = ovs.enumFrom 0 from rfl]
  rw [hl]
  simp

theorem sumOverOthers_pos (factor : FactorNode) (v2f : V2F)
    (hok : ∀ km ∈ v2f, MsgOK km.2) (tv : String) (tval : ℕ)
    (ovs : List String) :
    0 < sumOverOthers factor v2f tv tval ovs := by
  rw [sumOverOthers_eq]
  have hmok : ∀ ov : String,
      MsgOK (v2f.getD (ov, factor.factor_id) (1.0, 1.0)) := by
    intro ov
    unfold Dict.getD
    cases hl : v2f.lookup (ov, factor.factor_id) with
    | none => exact ⟨by norm_num, by norm_num, by norm_num⟩
    | some m => exact hok _ (Dict.lookup_mem _ _ _ hl)
  have hterm_nonneg : ∀ bits, 0 ≤ sooTerm factor v2f tv tval ovs bits := by
    intro bits
    unfold sooTerm
    apply mul_nonneg (compute_factor_potential_pos _ _).le
    apply foldl_mul_nonneg _ ovs 1.0 (by norm_num)
    intro ov _
    obtain ⟨h1, h2, _⟩ := hmok ov
    split_ifs <;> assumption
  set ds := ovs.map
    (fun ov => pickPos (v2f.getD (ov, factor.factor_id) (1.0, 1.0)))
    with hds
  have hdb : ∀ b ∈ ds, b < 2 := by
    intro b hb
    rw [hds] at hb
    obtain ⟨ov, _, hovb⟩ := List.mem_map.mp hb
    rw [← hovb]
    exact pickPos_lt_two _
  have hlen : ds.length = ovs.length := List.length_map _ _
  have hmem : ofBits ds ∈ List.range (2 ^ ovs.length) :=
    List.mem_range.mpr (hlen ▸ ofBits_lt ds hdb)
  refine foldl_add_pos _ _ _ (ofBits ds) hmem ?_
    (fun c _ => hterm_nonneg c) (by norm_num)
  unfold sooTerm
  apply mul_pos (compute_factor_potential_pos _ _)
  apply foldl_mul_pos _ ovs 1.0 (by norm_num)
  intro ov hov
  obtain ⟨j, hj, hga⟩ := buildAssignment_getD tv tval (ofBits ds) ovs ov hov
  have hdj : ds.get? j =
      some (pickPos (v2f.getD (ov, factor.factor_id) (1.0, 1.0))) := by
    rw [hds, List.get?_map, hj]
    rfl
  have hdig := ofBits_digit ds hdb j _ hdj
  rw [hga, hdig]
  exact pickPos_sel_pos _ (hmok ov)

end PyBayes

namespace PyBayes

theorem convex_pos {a b d : ℝ} (hd0 : 0 ≤ d) (hd1 : d ≤ 1)
    (ha : 0 < a) (hb : 0 < b) : 0 < d * a + (1 - d) * b := by
  by_cases h : d = 0
  · rw [h]
    norm_num
    exact hb
  · have hd : 0 < d := lt_of_le_of_ne hd0 (Ne.symm h)
    have h1 : 0 ≤ (1 - d) * b := mul_nonneg (by linarith) hb.le
    have h2 : 0 < d * a := mul_pos hd ha
    linarith

theorem div_pair_sum {a b : ℝ} (ha : 0 < a) (hb : 0 < b) :
    a / (a + b) + b / (a + b) = 1 := by
  rw [div_add_div_same, div_self (by linarith : a + b ≠ 0)]

theorem updateFactorTarget_pos (factor : FactorNode) (v2f : V2F) (d : ℝ)
    (hok : ∀ km ∈ v2f, MsgOK km.2) (hd0 : 0 ≤ d) (hd1 : d ≤ 1)
    (msgs : Dict String Msg) (mc : ℝ) (tv : String) (old : Msg)
    (hold : msgs.lookup tv = some old) (hop : MsgPos old) :
    ∃ dm mc', updateFactorTarget factor v2f d msgs mc tv =
      some (msgs.insert tv dm, mc') ∧ MsgPos dm := by
  have h0 := sumOverOthers_pos factor v2f hok tv 0
    (factor.var_keys.filter fun v => v ≠ tv)
  have h1 := sumOverOthers_pos factor v2f hok tv 1
    (factor.var_keys.filter fun v => v ≠ tv)
  have hsum : sumOverOthers factor v2f tv 0
        (factor.var_keys.filter fun v => v ≠ tv) +
      sumOverOthers factor v2f tv 1
        (factor.var_keys.filter fun v => v ≠ tv) > 0 := by linarith
  simp only [updateFactorTarget, hold, if_pos hsum]
  refine ⟨_, _, rfl, ?_, ?_⟩
  · exact convex_pos hd0 hd1 hop.1 (div_pos h0 hsum)
  · exact convex_pos hd0 hd1 hop.2 (div_pos h1 hsum)

theorem updateFactorTargets_pos (factor : FactorNode) (v2f : V2F) (d : ℝ)
    (hok : ∀ km ∈ v2f, MsgOK km.2) (hd0 : 0 ≤ d) (hd1 : d ≤ 1) :
    ∀ (targets : List String) (msgs : Dict String Msg) (mc : ℝ),
    (∀ t ∈ targets, msgs.contains t = true) →
    (∀ km ∈ msgs, MsgPos km.2) →
    ∃ msgs' mc',
      updateFactorTargets factor v2f d targets msgs mc = some (msgs', mc') ∧
      ∀ km ∈ msgs', MsgPos km.2 := by
  intro targets
  induction targets with
  | nil => intro msgs mc _ hpos; exact ⟨msgs, mc, rfl, hpos⟩
  | cons t rest ih =>
      intro msgs mc hall hpos
      obtain ⟨old, hold⟩ := (Dict.contains_iff_lookup msgs t).mp
        (hall t (List.mem_cons_self _ _))
      have hop : MsgPos old := hpos (t, old) (Dict.lookup_mem _ _ _ hold)
      obtain ⟨dm, mc₁, hshape, hdm⟩ := updateFactorTarget_pos factor v2f d
        hok hd0 hd1 msgs mc t old hold hop
      have hpos' : ∀ km ∈ msgs.insert t dm, MsgPos km.2 := by
        intro km hkm
        rcases Dict.mem_insert msgs t dm km hkm with h | h
        · rw [h]; exact hdm
        · exact hpos km h
      obtain ⟨msgs', mc', hrest, hpos''⟩ := ih (msgs.insert t dm) mc₁
        (fun t' ht' => Dict.contains_insert_of _ _ _ _
          (hall t' (List.mem_cons_of_mem _ ht')))
        hpos'
      refine ⟨msgs', mc', ?_, hpos''⟩
      unfold updateFactorTargets
      rw [hshape]
      exact hrest

theorem updateAllFactors_pos (v2f : V2F) (d : ℝ)
    (hok : ∀ km ∈ v2f, MsgOK km.2) (hd0 : 0 ≤ d) (hd1 : d ≤ 1) :
    ∀ (factors : List FactorNode) (mc : ℝ),
    (∀ f ∈ factors, ∀ k ∈ f.var_keys, f.messages.contains k = true) →
    (∀ f ∈ factors, ∀ km ∈ f.messages, MsgPos km.2) →
    ∃ factors' mc',
      updateAllFactors v2f d factors mc = some (factors', mc') ∧
      ∀ f' ∈ factors', ∀ km ∈ f'.messages, MsgPos km.2 := by
  intro factors
  induction factors with
  | nil => intro mc _ _; exact ⟨[], mc, rfl, by simp⟩
  | cons f rest ih =>
      intro mc hall hpos
      obtain ⟨msgs', mc', hhead, hp1⟩ := updateFactorTargets_pos f v2f d
        hok hd0 hd1 f.var_keys f.messages mc
        (fun t ht => hall f (List.mem_cons_self _ _) t ht)
        (fun km hkm => hpos f (List.mem_cons_self _ _) km hkm)
      obtain ⟨rest', mc'', hrest, hp2⟩ := ih mc'
        (fun f₁ h₁ => hall f₁ (List.mem_cons_of_mem _ h₁))
        (fun f₁ h₁ => hpos f₁ (List.mem_cons_of_mem _ h₁))
      refine ⟨{ f with messages := msgs' } :: rest', mc'', ?_, ?_⟩
      · simp only [updateAllFactors, hhead, hrest]
      · intro f' hf'
        rcases List.mem_cons.mp hf' with h | h
        · rw [h]; exact hp1
        · exact hp2 f' h

theorem productOfOthers_pos (g : FactorGraph) (var_key : String) (fi : ℕ)
    (hfpos : ∀ f ∈ g.factors, ∀ km ∈ f.messages, MsgPos km.2) :
    ∀ (l : List ℕ) (acc : Msg), MsgPos acc →
    ∀ m, productOfOthers g var_key fi l acc = some m → MsgPos m := by
  intro l
  induction l with
  | nil =>
      intro acc hacc m hm
      simp only [productOfOthers, Option.some_inj] at hm
      rw [← hm]
      exact hacc
  | cons j rest ih =>
      intro acc hacc m hm
      by_cases hj : j ≠ fi
      · simp only [productOfOthers, if_pos hj] at hm
        cases hf : g.factors.get? j with
        | none => rw [hf] at hm; exact Option.noConfusion hm
        | some f =>
            rw [hf] at hm
            simp only at hm
            cases hl : f.messages.lookup var_key with
            | none => rw [hl] at hm; exact Option.noConfusion hm
            | some inc =>
                rw [hl] at hm
                have hincp : MsgPos inc := hfpos f (List.get?_mem hf)
                  (var_key, inc) (Dict.lookup_mem _ _ _ hl)
                exact ih (acc.1 * inc.1, acc.2 * inc.2)
                  ⟨mul_pos hacc.1 hincp.1, mul_pos hacc.2 hincp.2⟩ m hm
      · simp only [productOfOthers, if_neg hj] at hm
        exact ih acc hacc m hm

theorem beliefProduct_pos (g : FactorGraph) (var_key : String)
    (hfpos : ∀ f ∈ g.factors, ∀ km ∈ f.messages, MsgPos km.2) :
    ∀ (l : List ℕ) (acc : Msg), MsgPos acc →
    ∀ m, beliefProduct g var_key l acc = some m → MsgPos m := by
  intro l
  induction l with
  | nil =>
      intro acc hacc m hm
      simp only [beliefProduct, Option.some_inj] at hm
      rw [← hm]
      exact hacc
  | cons j rest ih =>
      intro acc hacc m hm
      unfold beliefProduct at hm
      cases hf : g.factors.get? j with
      | none => rw [hf] at hm; exact Option.noConfusion hm
      | some f =>
          rw [hf] at hm
          simp only at hm
          cases hl : f.messages.lookup var_key with
          | none => rw [hl] at hm; exact Option.noConfusion hm
          | some inc =>
              rw [hl] at hm
              have hincp : MsgPos inc := hfpos f (List.get?_mem hf)
                (var_key, inc) (Dict.lookup_mem _ _ _ hl)
              exact ih (acc.1 * inc.1, acc.2 * inc.2)
                ⟨mul_pos hacc.1 hincp.1, mul_pos hacc.2 hincp.2⟩ m hm

theorem updateBeliefVar_char (g : FactorGraph) (k : String)
    (v v' : VariableNode)
    (hfpos : ∀ f ∈ g.factors, ∀ km ∈ f.messages, MsgPos km.2)
    (h : updateBeliefVar g k v = some v') :
    v'.is_evidence = v.is_evidence ∧ (v.is_evidence = true → v' = v) ∧
    (v.is_evidence = false → v'.belief.1 + v'.belief.2 = 1) := by
  by_cases hev : v.is_evidence
  · rw [updateBeliefVar_evidence g k v hev] at h
    injection h with h
    subst h
    exact ⟨rfl, fun _ => rfl, fun hf => absurd hev (by simp [hf])⟩
  · simp only [updateBeliefVar, if_neg hev] at h
    cases hfis : g.var_to_factors.lookup k with
    | none => rw [hfis] at h; simp at h
    | some fis =>
        rw [hfis] at h
        simp only at h
        cases hbp : beliefProduct g k fis (1.0, 1.0) with
        | none => rw [hbp] at h; exact Option.noConfusion h
        | some bel =>
            rw [hbp] at h
            simp only at h
            have hbelp : MsgPos bel := beliefProduct_pos g k hfpos fis
              (1.0, 1.0) ⟨by norm_num, by norm_num⟩ bel hbp
            have hs : bel.1 + bel.2 > 0 := by linarith [hbelp.1, hbelp.2]
            simp only [Option.some_inj] at h
            rw [if_pos hs] at h
            subst h
            refine ⟨rfl, fun hc => absurd hc hev, fun _ => ?_⟩
            exact div_pair_sum hbelp.1 hbelp.2

theorem updateVarKeyMsgs_mem (g : FactorGraph) (var_key : String)
    (all_indices : List ℕ)
    (hfpos : ∀ f ∈ g.factors, ∀ km ∈ f.messages, MsgPos km.2) :
    ∀ (l : List ℕ) (v2f v2f' : V2F), nodupKeys v2f = true →
    updateVarKeyMsgs g var_key all_indices l v2f = some v2f' →
    nodupKeys v2f' = true ∧
    ∀ km ∈ v2f',
      (km ∈ v2f ∧ ∀ fi ∈ l, km.1 ≠ (var_key, fi)) ∨
      (km.1.1 = var_key ∧ km.1.2 ∈ l ∧ MsgOK km.2 ∧
        km.2.1 + km.2.2 = 1) := by
  intro l
  induction l with
  | nil =>
      intro v2f v2f' hnd h
      simp only [updateVarKeyMsgs, Option.some_inj] at h
      subst h
      exact ⟨hnd, fun km hkm => Or.inl ⟨hkm, by simp⟩⟩
  | cons fi rest ih =>
      intro v2f v2f' hnd h
      cases hpom : productOfOthers g var_key fi all_indices (1.0, 1.0) with
      | none =>
          unfold updateVarKeyMsgs at h
          rw [hpom] at h
          simp at h
      | some nm =>
          have hnmp : MsgPos nm := productOfOthers_pos g var_key fi hfpos
            all_indices (1.0, 1.0) ⟨by norm_num, by norm_num⟩ nm hpom
          have hs : nm.1 + nm.2 > 0 := by linarith [hnmp.1, hnmp.2]
          unfold updateVarKeyMsgs at h
          rw [hpom] at h
          simp only [if_pos hs] at h
          have hndi : nodupKeys (v2f.insert (var_key, fi)
              (nm.1 / (nm.1 + nm.2), nm.2 / (nm.1 + nm.2))) = true :=
            nodupKeys_insert _ _ _ hnd
          obtain ⟨hnd', hmem⟩ := ih _ v2f' hndi h
          refine ⟨hnd', fun km hkm => ?_⟩
          rcases hmem km hkm with ⟨hin, hnc⟩ | ⟨h1, h2, h3, h4⟩
          · rcases Dict.mem_insert_nodup v2f (var_key, fi) _ km hnd hin
              with he | ⟨hv, hne⟩
            · right
              rw [he]
              refine ⟨rfl, List.mem_cons_self _ _,
                ⟨div_nonneg hnmp.1.le hs.le, div_nonneg hnmp.2.le hs.le, ?_⟩,
                div_pair_sum hnmp.1 hnmp.2⟩
              rw [div_pair_sum hnmp.1 hnmp.2]
              norm_num
            · left
              refine ⟨hv, fun fi' hfi' => ?_⟩
              rcases List.mem_cons.mp hfi' with hfe | hr
              · rw [hfe]
                exact hne
              · exact hnc fi' hr
          · right
            exact ⟨h1, List.mem_cons_of_mem _ h2, h3, h4⟩

theorem foldl_insert_pair_mem (k₀ : String) (b : Msg) :
    ∀ (fis : List ℕ) (v2f : V2F), nodupKeys v2f = true →
    nodupKeys (fis.foldl (fun m fi => m.insert (k₀, fi) b) v2f) = true ∧
    ∀ km ∈ fis.foldl (fun m fi => m.insert (k₀, fi) b) v2f,
      (km ∈ v2f ∧ ∀ fi ∈ fis, km.1 ≠ (k₀, fi)) ∨
      (km.1.1 = k₀ ∧ km.1.2 ∈ fis ∧ km.2 = b) := by
  intro fis
  induction fis with
  | nil => intro v2f hnd; exact ⟨hnd, fun km hkm => Or.inl ⟨hkm, by simp⟩⟩
  | cons fi rest ih =>
      intro v2f hnd
      simp only [List.foldl_cons]
      obtain ⟨hnd', hmem⟩ := ih (v2f.insert (k₀, fi) b)
        (nodupKeys_insert _ _ _ hnd)
      refine ⟨hnd', fun km hkm => ?_⟩
      rcases hmem km hkm with ⟨hin, hnc⟩ | ⟨h1, h2, h3⟩
      · rcases Dict.mem_insert_nodup v2f (k₀, fi) b km hnd hin
          with he | ⟨hv, hne⟩
        · right
          rw [he]
          exact ⟨rfl, List.mem_cons_self _ _, rfl⟩
        · left
          refine ⟨hv, fun fi' hfi' => ?_⟩
          rcases List.mem_cons.mp hfi' with hfe | hr
          · rw [hfe]
            exact hne
          · exact hnc fi' hr
      · right
        exact ⟨h1, List.mem_cons_of_mem _ h2, h3⟩

theorem updateVarMessages_mem (g : FactorGraph)
    (hfpos : ∀ f ∈ g.factors, ∀ km ∈ f.messages, MsgPos km.2)
    (hclamp : ∀ kv ∈ g.vars.items, kv.2.is_evidence = true →
      kv.2.belief = (0.0, 1.0) ∨ kv.2.belief = (1.0, 0.0)) :
    ∀ (items : List (String × List ℕ)) (v2f v2f' : V2F),
    nodupKeys v2f = true →
    updateVarMessages g items v2f = some v2f' →
    nodupKeys v2f' = true ∧
    ∀ km ∈ v2f',
      (km ∈ v2f ∧ ∀ kfis ∈ items, ¬(km.1.1 = kfis.1 ∧ km.1.2 ∈ kfis.2)) ∨
      (∃ kfis ∈ items, km.1.1 = kfis.1 ∧ km.1.2 ∈ kfis.2 ∧
        MsgOK km.2 ∧ km.2.1 + km.2.2 = 1) := by
  intro items
  induction items with
  | nil =>
      intro v2f v2f' hnd h
      simp only [updateVarMessages, Option.some_inj] at h
      subst h
      exact ⟨hnd, fun km hkm => Or.inl ⟨hkm, by simp⟩⟩
  | cons p rest ih =>
      obtain ⟨k₀, fis₀⟩ := p
      intro v2f v2f' hnd h
      unfold updateVarMessages at h
      cases hvar : g.vars.lookup k₀ with
      | none => rw [hvar] at h; simp at h
      | some var =>
          rw [hvar] at h
          simp only at h
          by_cases hev : var.is_evidence
          · rw [if_pos hev] at h
            obtain ⟨hndf, hmemf⟩ := foldl_insert_pair_mem k₀ var.belief
              fis₀ v2f hnd
            obtain ⟨hnd', hmem⟩ := ih _ v2f' hndf h
            have hbel : MsgOK var.belief ∧
                var.belief.1 + var.belief.2 = 1 := by
              rcases hclamp (k₀, var) (Dict.lookup_mem _ _ _ hvar) hev
                with hb | hb <;>
                rw [hb] <;>
                exact ⟨⟨by norm_num, by norm_num, by norm_num⟩, by norm_num⟩
            refine ⟨hnd', fun km hkm => ?_⟩
            rcases hmem km hkm with ⟨hin, hnc⟩ | ⟨q, hq, h1, h2, h3, h4⟩
            · rcases hmemf km hin with ⟨hv, hne⟩ | ⟨h1, h2, h3⟩
              · left
                refine ⟨hv, fun kfis hkfis => ?_⟩
                rcases List.mem_cons.mp hkfis with hfe | hr
                · rw [hfe]
                  rintro ⟨ha, hb⟩
                  exact hne km.1.2 hb (Prod.ext ha rfl)
                · exact hnc kfis hr
              · right
                refine ⟨(k₀, fis₀), List.mem_cons_self _ _, h1, h2, ?_, ?_⟩
                · rw [h3]
                  exact hbel.1
                · rw [h3]
                  exact hbel.2
            · right
              exact ⟨q, List.mem_cons_of_mem _ hq, h1, h2, h3, h4⟩
          · rw [if_neg hev] at h
            cases hk : updateVarKeyMsgs g k₀ fis₀ fis₀ v2f with
            | none => rw [hk] at h; simp at h
            | some v2f₁ =>
                rw [hk] at h
                obtain ⟨hnd₁, hmem₁⟩ := updateVarKeyMsgs_mem g k₀ fis₀
                  hfpos fis₀ v2f v2f₁ hnd hk
                obtain ⟨hnd', hmem⟩ := ih v2f₁ v2f' hnd₁ h
                refine ⟨hnd', fun km hkm => ?_⟩
                rcases hmem km hkm with ⟨hin, hnc⟩ | ⟨q, hq, h1, h2, h3, h4⟩
                · rcases hmem₁ km hin with ⟨hv, hne⟩ | ⟨h1, h2, h3, h4⟩
                  · left
                    refine ⟨hv, fun kfis hkfis => ?_⟩
                    rcases List.mem_cons.mp hkfis with hfe | hr
                    · rw [hfe]
                      rintro ⟨ha, hb⟩
                      exact hne km.1.2 hb (Prod.ext ha rfl)
                    · exact hnc kfis hr
                  · right
                    exact ⟨(k₀, fis₀), List.mem_cons_self _ _, h1, h2, h3, h4⟩
                · right
                  exact ⟨q, List.mem_cons_of_mem _ hq, h1, h2, h3, h4⟩

end PyBayes

namespace PyBayes

/-- C4 (amended): one completed belief-propagation iteration from any
state satisfying the numeric invariant `BPInv` (which holds at the start
of every run) succeeds and normalizes every non-evidence belief and every
variable→factor message to sum `1`, and preserves well-formedness and the
invariant — so these normalization facts hold after every completed
iteration.  The stored factor→variable message pairs are exempt: damping
blends the normalized new message with the stored one, which starts at
`[1, 1]`, so their sums differ from `1` (see the counterexample). -/
theorem bp_normalization_amended (g : FactorGraph) (v2f : V2F) (d : ℝ)
    (hwf : g.wf = true) (hinv : BPInv g v2f) (hd0 : 0 ≤ d) (hd1 : d ≤ 1) :
    ∃ g' v2f' mc, bpSweep g v2f d = some (g', v2f', mc) ∧
      (∀ kv ∈ g'.vars.items, kv.2.is_evidence = false →
        kv.2.belief.1 + kv.2.belief.2 = 1) ∧
      (∀ km ∈ v2f', km.2.1 + km.2.2 = 1) ∧
      g'.wf = true ∧ BPInv g' v2f' := by
  obtain ⟨g', v2f', mc, hsweep, hwf', hvtf'⟩ := bpSweep_wf g v2f d hwf
  obtain ⟨hfpos, hmok, hprov, hndv, hclamp⟩ := hinv
  obtain ⟨factors', vars', hAF, hUVM, hUAB, hg'⟩ :=
    bpSweep_inv g v2f d g' v2f' mc hsweep
  obtain ⟨hnd1, hnd2, hadj, hcov, hfm⟩ := (wf_spec g).mp hwf
  obtain ⟨factorsP, mcP, hAFP, hfposP⟩ :=
    updateAllFactors_pos v2f d hmok hd0 hd1 g.factors 0.0 hfm hfpos
  rw [hAF] at hAFP
  simp only [Option.some_inj, Prod.mk.injEq] at hAFP
  obtain ⟨hfe, hmce⟩ := hAFP
  subst hfe
  obtain ⟨hndv', hmem'⟩ := updateVarMessages_mem
    { g with factors := factors' } hfposP hclamp
    g.var_to_factors.items v2f v2f' hndv hUVM
  have hall1 : ∀ km ∈ v2f', MsgOK km.2 ∧ km.2.1 + km.2.2 = 1 := by
    intro km hkm
    rcases hmem' km hkm with ⟨hin, hnc⟩ | ⟨q, hq, h1, h2, h3, h4⟩
    · obtain ⟨fis, hlf, hmf⟩ := hprov km hin
      exact absurd ⟨rfl, hmf⟩ (hnc (km.1.1, fis) (Dict.lookup_mem _ _ _ hlf))
    · exact ⟨h3, h4⟩
  have hprov' : ∀ km ∈ v2f', ∃ fis,
      g.var_to_factors.lookup km.1.1 = some fis ∧ km.1.2 ∈ fis := by
    intro km hkm
    rcases hmem' km hkm with ⟨hin, _⟩ | ⟨⟨qk, qf⟩, hq, h1, h2, _, _⟩
    · exact hprov km hin
    · refine ⟨qf, ?_, h2⟩
      rw [h1]
      exact Dict.lookup_of_mem_nodup _ hnd2 qk qf hq
  have hbel : ∀ kv ∈ vars',
      (kv.2.is_evidence = false → kv.2.belief.1 + kv.2.belief.2 = 1) ∧
      (kv.2.is_evidence = true →
        kv.2.belief = (0.0, 1.0) ∨ kv.2.belief = (1.0, 0.0)) := by
    intro kv hkv
    obtain ⟨q, hqm, hq1, hq2⟩ := updateAllBeliefs_mem
      { g with factors := factors' } g.vars.items vars' hUAB kv hkv
    obtain ⟨hche, hchev, hchn⟩ :=
      updateBeliefVar_char _ q.1 q.2 kv.2 hfposP hq2
    constructor
    · intro hf
      exact hchn (by rw [← hche]; exact hf)
    · intro ht
      have hqev : q.2.is_evidence = true := by rw [← hche]; exact ht
      rw [hchev hqev]
      exact hclamp q hqm hqev
  subst hg'
  refine ⟨_, v2f', mc, hsweep,
    fun kv hkv => (hbel kv hkv).1,
    fun km hkm => (hall1 km hkm).2, hwf',
    hfposP,
    fun km hkm => (hall1 km hkm).1,
    hprov', hndv',
    fun kv hkv => (hbel kv hkv).2⟩

/-- C4 amended witness: the invariant hypotheses hold concretely on the
two-variable implication graph at the start of a run, with damping
`1/2`. -/
theorem bp_normalization_amended_witness :
    ∃ g' v2f' mc,
      bpSweep gC4 (initV2F gC4) ((1 : ℝ)/2) = some (g', v2f', mc) ∧
      (∀ kv ∈ g'.vars.items, kv.2.is_evidence = false →
        kv.2.belief.1 + kv.2.belief.2 = 1) ∧
      (∀ km ∈ v2f', km.2.1 + km.2.2 = 1) ∧
      g'.wf = true ∧ BPInv g' v2f' :=
  bp_normalization_amended gC4 (initV2F gC4) (1/2) rfl
    (by
      have hfac : gC4.factors =
          [{ factor_id := 0, var_keys := ["a", "b"], weight := 0,
             factor_type := "implication",
             messages := [("a", (1.0, 1.0)), ("b", (1.0, 1.0))] }] := rfl
      have hv2f : initV2F gC4 =
          [(("a", 0), (1.0, 1.0)), (("b", 0), (1.0, 1.0))] := rfl
      refine ⟨?_, ?_, ?_, rfl, ?_⟩
      · intro f hf km hkm
        rw [hfac] at hf
        obtain rfl := List.mem_singleton.mp hf
        rcases List.mem_cons.mp hkm with rfl | hkm'
        · exact ⟨by norm_num, by norm_num⟩
        · obtain rfl := List.mem_singleton.mp hkm'
          exact ⟨by norm_num, by norm_num⟩
      · intro km hkm
        rw [hv2f] at hkm
        rcases List.mem_cons.mp hkm with rfl | hkm'
        · exact ⟨by norm_num, by norm_num, by norm_num⟩
        · obtain rfl := List.mem_singleton.mp hkm'
          exact ⟨by norm_num, by norm_num, by norm_num⟩
      · intro km hkm
        rw [hv2f] at hkm
        rcases List.mem_cons.mp hkm with rfl | hkm'
        · exact ⟨[0], rfl, by simp⟩
        · obtain rfl := List.mem_singleton.mp hkm'
          exact ⟨[0], rfl, by simp⟩
      · intro kv hkv hev
        have hvars : gC4.vars =
            [("a", { key := "a" }), ("b", { key := "b" })] := rfl
        rw [hvars] at hkv
        rcases List.mem_cons.mp hkv with rfl | hkv'
        · simp at hev
        · obtain rfl := List.mem_singleton.mp hkv'
          simp at hev)
    (by norm_num) (by norm_num)

set_option maxHeartbeats 1000000 in
/-- C4 counterexample (refuting the stored-message clause): on the
two-variable zero-weight implication graph, after the first completed
iteration with damping `0.5` the stored factor→variable message to `"a"`
is `[0.75, 0.75]` — the damped blend of the initial `[1, 1]` with the
normalized new message — and its entries sum to `1.5`, not `1`. -/
theorem bp_stored_message_not_normalized :
    ∃ r f,
      belief_propagation gC4 1 (0.5 : ℝ) none = some r ∧
      r.1.factors = [f] ∧
      f.messages.lookup "a" = some ((3 : ℝ)/4, (3 : ℝ)/4) ∧
      (3 : ℝ)/4 + (3 : ℝ)/4 ≠ 1 := by
  have h : ((belief_propagation gC4 1 (0.5 : ℝ) none).map
      fun r => r.1.factors.map fun f => f.messages.lookup "a") =
      some [some ((3 : ℝ)/4, (3 : ℝ)/4)] := by
    simp +decide [gC4, belief_propagation, bpLoop, bpSweep, updateAllFactors,
      updateFactorTargets, updateFactorTarget, sumOverOthers, buildAssignment,
      compute_factor_potential, updateVarMessages, updateVarKeyMsgs,
      productOfOthers, updateAllBeliefs, updateBeliefVar, beliefProduct,
      initV2F, FactorGraph.add_implication_factor, FactorGraph.add_variable,
      FactorNode.init_messages, Dict.lookup, Dict.insert, Dict.getD,
      Dict.items, Dict.contains, Dict.empty, BPTrace.record,
      VariableNode.prob_true, List.range, List.range.loop]
    norm_num
  cases hbp : belief_propagation gC4 1 (0.5 : ℝ) none with
  | none => rw [hbp] at h; exact Option.noConfusion h
  | some r =>
      rw [hbp] at h
      simp only [Option.map_some', Option.some_inj] at h
      cases hl : r.1.factors with
      | nil => rw [hl] at h; simp at h
      | cons f rest =>
          rw [hl] at h
          simp only [List.map_cons, List.cons.injEq] at h
          have hrest : rest = [] := List.map_eq_nil.mp h.2
          refine ⟨r, f, rfl, by rw [hl, hrest], h.1, by norm_num⟩

end PyBayes
